import Mathlib

/-!
Verification of the ambara node-graph image-processing engine.

This file shallowly embeds the parts of the Rust source that the checked
properties speak about:

* `src/core/types.rs` — the `PortType` lattice and `compatible_with`;
* `src/graph/structure.rs` — `ProcessingGraph::connect` and `is_reachable`;
* `src/graph/topology.rs` — `TopologyAnalyzer::topological_sort` and
  `parallel_batches` (Kahn's algorithm and depth batching);
* `src/execution/cache.rs` — `ResultCache` (LRU with byte budget);
* `src/execution/engine.rs` — the sequential execution loop with
  cooperative cancellation;
* `src/execution/progress.rs` — `ProgressTracker::progress_percent`;
* `src/core/chunked.rs` — the tile iterator, overlap expansion, the
  in-memory source/sink and `process_chunked`.

Machine integers (`u32`, `u64`, `usize`) are modelled as `Nat` (the code's
subtractions are `saturating_sub` or guarded, which `Nat` subtraction
matches); `f32` percentages are modelled over `ℚ`; UUID-valued node and
connection ids are modelled as `Nat` supplied by the caller; the iteration
order of a Rust `std::collections::HashMap` is unspecified, so wherever the
source iterates a `HashMap` the embedding takes that order as an explicit
argument (any permutation of the keys is an admissible order).
-/

namespace Ambara

/-! ## Port types (`src/core/types.rs`) -/

/-- `PortType` from `src/core/types.rs`: the closed set of port types, with
`Array` and `Map` carrying an element type. -/
inductive PortType where
  | image
  | integer
  | float
  | string
  | boolean
  | color
  | vector2
  | vector3
  | array (inner : PortType)
  | map (inner : PortType)
  | any
deriving DecidableEq, Repr

/-- `PortType::compatible_with` from `src/core/types.rs` lines 336-348:
`Any` on either side is compatible; `Integer` output may feed a `Float`
input; containers are covariant in the element type; otherwise exact
equality. -/
def PortType.compatible_with : PortType → PortType → Bool
  | .any, _ => true
  | _, .any => true
  | .integer, .float => true
  | .array a, .array b => a.compatible_with b
  | .map a, .map b => a.compatible_with b
  | a, b => a = b

/-- Compatibility as the specification words it: `a` or `b` is `Any`, or
`a` is `Integer` and `b` is `Float`, or both are `Array` (resp. both `Map`)
with compatible element types, or `a` equals `b`. -/
def specCompatible : PortType → PortType → Bool
  | a, b =>
    a = PortType.any || b = PortType.any
      || (a = PortType.integer && b = PortType.float)
      || (match a, b with
          | .array x, .array y => specCompatible x y
          | .map x, .map y => specCompatible x y
          | _, _ => false)
      || a = b

/-! ## Graph structure (`src/graph/structure.rs`) -/

/-- Node ids are UUIDs in the source; modelled as `Nat`. -/
abbrev NodeId := Nat

/-- Connection ids are UUIDs in the source; modelled as `Nat`. -/
abbrev ConnectionId := Nat

/-- `PortDefinition` from `src/core/port.rs` (the fields `connect` reads:
name and port type). -/
structure PortDefinition where
  name : String
  port_type : PortType
deriving DecidableEq, Repr

/-- `NodeMetadata` from `src/core/node.rs` (the fields `connect` reads:
the ordered input and output port lists). -/
structure NodeMetadata where
  inputs : List PortDefinition
  outputs : List PortDefinition
deriving DecidableEq, Repr

/-- `NodeMetadata::get_input`: first input port with the given name. -/
def NodeMetadata.get_input (m : NodeMetadata) (name : String) :
    Option PortDefinition :=
  m.inputs.find? (fun p => p.name = name)

/-- `NodeMetadata::get_output`: first output port with the given name. -/
def NodeMetadata.get_output (m : NodeMetadata) (name : String) :
    Option PortDefinition :=
  m.outputs.find? (fun p => p.name = name)

/-- `Connection` from `src/graph/connection.rs`; the two `Endpoint` structs
are flattened into their node-id and port-name fields. -/
structure Connection where
  id : ConnectionId
  fromNode : NodeId
  fromPort : String
  toNode : NodeId
  toPort : String
deriving DecidableEq, Repr

/-- `ProcessingGraph` from `src/graph/structure.rs`: an insertion-ordered
map from node id to node (the `IndexMap`, modelled as an association list
with unique keys) plus the ordered connection list.  Of a `GraphNode` only
the filter metadata is kept — the only part `connect` and the topology
analyzer consult. -/
structure ProcessingGraph where
  nodes : List (NodeId × NodeMetadata)
  connections : List Connection
deriving DecidableEq, Repr

/-- `ProcessingGraph::get_node` (success payload only). -/
def ProcessingGraph.get_node (g : ProcessingGraph) (id : NodeId) :
    Option NodeMetadata :=
  (g.nodes.find? (fun p => p.1 = id)).map (·.2)

/-- `ProcessingGraph::node_ids` in insertion order. -/
def ProcessingGraph.node_ids (g : ProcessingGraph) : List NodeId :=
  g.nodes.map (·.1)

/-- `ProcessingGraph::is_input_connected`. -/
def ProcessingGraph.is_input_connected (g : ProcessingGraph)
    (node_id : NodeId) (port : String) : Bool :=
  g.connections.any (fun c => c.toNode = node_id && c.toPort = port)

/-- `ProcessingGraph::connections_from`. -/
def ProcessingGraph.connections_from (g : ProcessingGraph) (node_id : NodeId) :
    List Connection :=
  g.connections.filter (fun c => c.fromNode = node_id)

/-- `ProcessingGraph::connections_to`. -/
def ProcessingGraph.connections_to (g : ProcessingGraph) (node_id : NodeId) :
    List Connection :=
  g.connections.filter (fun c => c.toNode = node_id)

/-- The BFS loop inside `ProcessingGraph::is_reachable`: pop the queue
front; the target ends the search, an already-visited node is skipped, and
a newly visited node pushes its successors.  `fuel` bounds the number of
pops; the Rust loop pops at most `1 + connections.length` times (one
initial push plus at most one push per connection), so the fuel passed by
`is_reachable` is never exhausted. -/
def bfsLoop (conns : List Connection) (target : NodeId) :
    Nat → List NodeId → List NodeId → Bool
  | 0, _, _ => false
  | _ + 1, _, [] => false
  | fuel + 1, visited, current :: rest =>
    if current = target then true
    else if current ∈ visited then bfsLoop conns target fuel visited rest
    else
      bfsLoop conns target fuel (current :: visited)
        (rest ++ (conns.filter (fun c => c.fromNode = current)).map (·.toNode))

/-- `ProcessingGraph::is_reachable` from `src/graph/structure.rs` lines
384-406: `start == target` is immediately reachable, otherwise BFS along
connections. -/
def ProcessingGraph.is_reachable (g : ProcessingGraph)
    (start target : NodeId) : Bool :=
  if start = target then true
  else bfsLoop g.connections target (g.connections.length + 1) [] [start]

/-- `ProcessingGraph::would_create_cycle`: the new edge `from → to` creates
a cycle iff `from` is reachable from `to`. -/
def ProcessingGraph.would_create_cycle (g : ProcessingGraph)
    (from_node to_node : NodeId) : Bool :=
  g.is_reachable to_node from_node

/-- `GraphError` from `src/core/error.rs` (the variants `connect` and the
topology analyzer can produce). -/
inductive GraphError where
  | nodeNotFound (id : NodeId)
  | connectionNotFound (id : ConnectionId)
  | portNotFound (node_id : NodeId) (port : String)
  | cycleDetected (nodes : List NodeId)
  | typeMismatch (from_type to_type : PortType)
  | portAlreadyConnected (node_id : NodeId) (port : String)
deriving DecidableEq, Repr

/-- `ProcessingGraph::connect` from `src/graph/structure.rs` lines 243-314.
Checks, in source order: both nodes exist, both ports exist, the source
output type is compatible with the target input type, the target input is
not already connected, and the new edge closes no cycle; only then is the
connection appended.  The UUID `ConnectionId::new()` is modelled as the
caller-supplied `freshId`.  The result pairs the returned value with the
post-call graph (the Rust method mutates `&mut self` only in the success
branch). -/
def ProcessingGraph.connect (g : ProcessingGraph) (freshId : ConnectionId)
    (from_node : NodeId) (from_port : String)
    (to_node : NodeId) (to_port : String) :
    Except GraphError ConnectionId × ProcessingGraph :=
  match g.get_node from_node with
  | none => (.error (.nodeNotFound from_node), g)
  | some from_metadata =>
    match g.get_node to_node with
    | none => (.error (.nodeNotFound to_node), g)
    | some to_metadata =>
      match from_metadata.get_output from_port with
      | none => (.error (.portNotFound from_node from_port), g)
      | some from_port_def =>
        match to_metadata.get_input to_port with
        | none => (.error (.portNotFound to_node to_port), g)
        | some to_port_def =>
          if ¬ from_port_def.port_type.compatible_with to_port_def.port_type
          then (.error (.typeMismatch from_port_def.port_type
                          to_port_def.port_type), g)
          else if g.is_input_connected to_node to_port then
            (.error (.portAlreadyConnected to_node to_port), g)
          else if g.would_create_cycle from_node to_node then
            (.error (.cycleDetected [from_node, to_node]), g)
          else
            (.ok freshId,
              { g with
                  connections := g.connections
                    ++ [⟨freshId, from_node, from_port, to_node, to_port⟩] })

/-! ## Topology analysis (`src/graph/topology.rs`)

`topological_sort` keys its `in_degree` map by a `std::collections::HashMap`
and seeds its queue — and collects the `remaining` set — by iterating that
map.  `HashMap` iteration order is unspecified, so the embedding takes it
as an explicit argument `order` (any permutation of the node ids is an
admissible order).  Likewise `parallel_batches` groups the `depth` map by
iterating a `HashMap`; that order is the argument `order2`. -/

/-- In-degree of a node: the number of connections into it (what the
source's counting loop over `connections()` computes, given that every
connection endpoint exists in the node map). -/
def ProcessingGraph.inDegreeOf (g : ProcessingGraph) (n : NodeId) : Nat :=
  (g.connections.filter (fun c => c.toNode = n)).length

/-- Adjacency list of a node: targets of its outgoing connections, in
connection-list order (how the source builds `adjacency`). -/
def ProcessingGraph.adjOf (g : ProcessingGraph) (n : NodeId) : List NodeId :=
  (g.connections.filter (fun c => c.fromNode = n)).map (fun c => c.toNode)

/-- Degree lookup in the in-degree association list (0 when absent). -/
def lookupDeg (deg : List (NodeId × Nat)) (n : NodeId) : Nat :=
  ((deg.find? (fun p => p.1 = n)).map (fun p => p.2)).getD 0

/-- Decrement a node's entry in the in-degree list (`*degree -= 1`;
`Nat` subtraction saturates exactly where the Rust `usize` subtraction
would underflow-panic, a state Kahn's loop never reaches). -/
def decDeg (deg : List (NodeId × Nat)) (n : NodeId) : List (NodeId × Nat) :=
  deg.map (fun p => if p.1 = n then (p.1, p.2 - 1) else p)

/-- The inner `for neighbor in adjacency[node]` loop of Kahn's algorithm:
decrement each neighbour's in-degree and queue the neighbours whose degree
hits zero (`pushed`, in neighbour order). -/
def relaxAll (deg : List (NodeId × Nat)) (pushed : List NodeId) :
    List NodeId → List (NodeId × Nat) × List NodeId
  | [] => (deg, pushed)
  | n :: ns =>
    if lookupDeg deg n = 1 then relaxAll (decDeg deg n) (pushed ++ [n]) ns
    else relaxAll (decDeg deg n) pushed ns

/-- The outer `while let Some(node) = queue.pop_front()` loop: pop the
front, emit the node, relax its neighbours, push the newly-zero ones at
the back.  `fuel` bounds the number of iterations; `topologicalSort`
passes `degree sum + queue length`, which strictly dominates the loop's
iteration count, so the fuel-exhausted branch is never taken. -/
def kahnLoop (adj : NodeId → List NodeId) :
    Nat → List NodeId → List (NodeId × Nat) → List NodeId →
      List NodeId × List (NodeId × Nat)
  | _, [], deg, res => (res, deg)
  | 0, _ :: _, deg, res => (res, deg)
  | fuel + 1, node :: rest, deg, res =>
    kahnLoop adj fuel (rest ++ (relaxAll deg [] (adj node)).2)
      (relaxAll deg [] (adj node)).1 (res ++ [node])

/-- The sum of all stored in-degrees (the fuel component). -/
def degSum (deg : List (NodeId × Nat)) : Nat :=
  (deg.map (fun p => p.2)).sum

/-- The initial in-degree association list, keyed in the `HashMap`
iteration order `order`. -/
def initDeg (g : ProcessingGraph) (order : List NodeId) :
    List (NodeId × Nat) :=
  order.map (fun n => (n, g.inDegreeOf n))

/-- The initial queue: the zero-in-degree nodes, in `HashMap` iteration
order. -/
def initQueue (g : ProcessingGraph) (order : List NodeId) : List NodeId :=
  ((initDeg g order).filter (fun p => p.2 = 0)).map (fun p => p.1)

/-- The list of nodes Kahn's loop emits, together with the final in-degree
list. -/
def kahnRun (g : ProcessingGraph) (order : List NodeId) :
    List NodeId × List (NodeId × Nat) :=
  kahnLoop g.adjOf (degSum (initDeg g order) + (initQueue g order).length)
    (initQueue g order) (initDeg g order) []

/-- `TopologyAnalyzer::topological_sort` from `src/graph/topology.rs`
lines 26-78 (Kahn's algorithm): if the loop emits every node the order is
returned, otherwise `CycleDetected` carries the nodes whose remaining
in-degree is positive, in map-iteration order. -/
def topologicalSort (g : ProcessingGraph) (order : List NodeId) :
    Except GraphError (List NodeId) :=
  if (kahnRun g order).1.length = g.nodes.length then .ok (kahnRun g order).1
  else
    .error (.cycleDetected
      (((kahnRun g order).2.filter (fun p => 0 < p.2)).map (fun p => p.1)))

/-- Depth lookup in the depth association list (`depth.get`). -/
def lookupDepth (depth : List (NodeId × Nat)) (n : NodeId) : Option Nat :=
  (depth.find? (fun p => p.1 = n)).map (fun p => p.2)

/-- The per-node body of the `parallel_batches` depth fold: a node with no
incoming connection has depth 0, otherwise 1 plus the maximum recorded
depth of its connection sources (`filter_map` over `depth.get`, `max`,
`unwrap_or(0)`). -/
def depthValue (g : ProcessingGraph) (D : List (NodeId × Nat))
    (n : NodeId) : Nat :=
  if g.connections_to n = [] then 0
  else ((g.connections_to n).filterMap
      (fun c => lookupDepth D c.fromNode)).foldr max 0 + 1

/-- The `depth` map of `parallel_batches`: fold `depthValue` over the
topological order. -/
def depthList (g : ProcessingGraph) (sorted : List NodeId) :
    List (NodeId × Nat) :=
  sorted.foldl (fun acc n => acc ++ [(n, depthValue g acc n)]) []

/-- `TopologyAnalyzer::parallel_batches` from `src/graph/topology.rs`
lines 84-120: topologically sort, compute each node's depth, group the
depth map into `batches[d]` by iterating it in the `HashMap` order
`order2`, and drop empty batches. -/
def parallelBatches (g : ProcessingGraph) (order order2 : List NodeId) :
    Except GraphError (List (List NodeId)) :=
  match topologicalSort g order with
  | .error e => .error e
  | .ok sorted =>
    .ok (((List.range
        ((((depthList g sorted).map (fun p => p.2)).max?).getD 0 + 1)).map
      (fun d => order2.filter
        (fun n => lookupDepth (depthList g sorted) n = some d))).filter
      (fun b => ¬ b = []))

/-- A single connection step `u → v` in the graph. -/
def edgeStep (g : ProcessingGraph) (u v : NodeId) : Prop :=
  ∃ c ∈ g.connections, c.fromNode = u ∧ c.toNode = v

/-- The graph contains a directed cycle: some node has a nonempty
connection path back to itself. -/
def HasCycle (g : ProcessingGraph) : Prop :=
  ∃ n, Relation.TransGen (edgeStep g) n n

/-- Structural well-formedness maintained by the graph store: node ids
are unique and every connection endpoint is a present node (the topology
analyzer `unwrap`s on this). -/
def WellFormed (g : ProcessingGraph) : Prop :=
  g.node_ids.Nodup
    ∧ ∀ c ∈ g.connections,
        c.fromNode ∈ g.node_ids ∧ c.toNode ∈ g.node_ids

/-- Invariant machinery: the number of connections into `n` whose source
has not yet been emitted (`res` is the emitted list).  With `res = []`
this is `inDegreeOf`. -/
def inDegExcept (g : ProcessingGraph) (res : List NodeId) (n : NodeId) : Nat :=
  (g.connections.filter (fun c => c.toNode = n && ¬ c.fromNode ∈ res)).length

/-- Invariant machinery: the in-degree association list determined by the
emitted list `res` — Kahn's loop keeps its mutable `in_degree` map exactly
in this state. -/
def degAfter (g : ProcessingGraph) (order res : List NodeId) :
    List (NodeId × Nat) :=
  order.map (fun n => (n, inDegExcept g res n))

/-- The inductive invariant of Kahn's loop: the in-degree map is exactly
determined by the emitted list `res`; queue and emitted list are
duplicate-free; the queue holds exactly the unemitted nodes whose pending
in-degree is zero; and the emitted list is closed under parents, each
parent emitted strictly earlier. -/
def LoopInv (g : ProcessingGraph) (order queue : List NodeId)
    (deg : List (NodeId × Nat)) (res : List NodeId) : Prop :=
  deg = degAfter g order res
    ∧ queue.Nodup
    ∧ res.Nodup
    ∧ (∀ n ∈ queue, n ∈ order ∧ n ∉ res ∧ inDegExcept g res n = 0)
    ∧ (∀ n ∈ order, n ∉ res → inDegExcept g res n = 0 → n ∈ queue)
    ∧ res ⊆ order
    ∧ (∀ c ∈ g.connections, c.toNode ∈ res →
        c.fromNode ∈ res ∧ List.indexOf c.fromNode res < List.indexOf c.toNode res)

/-- What holds of Kahn's loop result: the final in-degree map is the one
determined by the emitted list, the emitted list is a duplicate-free
parent-closed topological prefix of the graph, and every unemitted node
still has positive pending in-degree. -/
def LoopPost (g : ProcessingGraph) (order res : List NodeId)
    (deg : List (NodeId × Nat)) : Prop :=
  deg = degAfter g order res
    ∧ res.Nodup
    ∧ res ⊆ order
    ∧ (∀ c ∈ g.connections, c.toNode ∈ res →
        c.fromNode ∈ res ∧ List.indexOf c.fromNode res < List.indexOf c.toNode res)
    ∧ (∀ n ∈ order, n ∉ res → 0 < inDegExcept g res n)

/-- Batch index of a node: the first batch containing it. -/
def batchIndex (bs : List (List NodeId)) (n : NodeId) : Nat :=
  bs.findIdx (fun b => n ∈ b)

/-! ## Result cache (`src/execution/cache.rs`)

The LRU list of the `lru` crate is modelled as an association list in
least-recently-used-first order (head = next eviction victim, tail = most
recent).  A `CacheEntry` keeps the fields the byte accounting reads:
`memory_size` and `created_at` (an `Instant`, modelled as `Nat`; the
entry's outputs and computation time play no role in the accounting). -/

/-- `CacheKey` from `src/execution/cache.rs`: node id plus 64-bit input
hash (modelled as `Nat`). -/
structure CacheKey where
  node_id : NodeId
  input_hash : Nat
deriving DecidableEq, Repr

/-- The accounting-relevant fields of `CacheEntry`. -/
structure CacheEntry where
  memory_size : Nat
  created_at : Nat
deriving DecidableEq, Repr

/-- `lru::LruCache::put`: replace and promote an existing key, otherwise
insert at the most-recent end, silently dropping the LRU entry when the
cache is at capacity.  This internal capacity eviction does not touch the
byte counter — exactly as in the source. -/
def lruPut (cap : Nat) (l : List (CacheKey × CacheEntry))
    (k : CacheKey) (v : CacheEntry) : List (CacheKey × CacheEntry) :=
  if l.any (fun p => p.1 = k) then
    l.filter (fun p => ¬ p.1 = k) ++ [(k, v)]
  else if cap ≤ l.length then
    l.tail ++ [(k, v)]
  else
    l ++ [(k, v)]

/-- `ResultCache` from `src/execution/cache.rs` lines 169-180: the LRU
list, the entry-count capacity, the byte budget `max_memory`, the tracked
`current_memory`, the TTL, and the statistics counters. -/
structure ResultCache where
  cache : List (CacheKey × CacheEntry)
  capacity : Nat
  max_memory : Nat
  current_memory : Nat
  ttl : Nat
  hits : Nat
  misses : Nat
  evictions : Nat
deriving DecidableEq, Repr

/-- The eviction loop inside `ResultCache::put`: while the tracked usage
plus the incoming entry's size exceeds the byte budget, pop the LRU entry
and subtract its size (saturating); stop early (`break`) when the LRU list
is empty.  Returns the remaining list, the tracked usage, and the eviction
counter. -/
def evictToFit (maxMem need : Nat) :
    List (CacheKey × CacheEntry) → Nat → Nat →
      List (CacheKey × CacheEntry) × Nat × Nat
  | [], current, ev => ([], current, ev)
  | e :: rest, current, ev =>
    if maxMem < current + need then
      evictToFit maxMem need rest (current - e.2.memory_size) (ev + 1)
    else (e :: rest, current, ev)

/-- `ResultCache::put` from `src/execution/cache.rs` lines 259-286: run
the eviction loop, add the entry's size to the tracked usage, then store
the entry in the LRU (whose own capacity eviction bypasses the byte
counter). -/
def ResultCache.put (c : ResultCache) (k : CacheKey)
    (size now : Nat) : ResultCache :=
  let r := evictToFit c.max_memory size c.cache c.current_memory c.evictions
  { c with
      cache := lruPut c.capacity r.1 k ⟨size, now⟩,
      current_memory := r.2.1 + size,
      evictions := r.2.2 }

/-- `ResultCache::get` (hit flag only): a present, unexpired entry is
promoted and counted as a hit; an expired entry is popped — without
touching the byte counter — and counted as a miss. -/
def ResultCache.get (c : ResultCache) (k : CacheKey) (now : Nat) :
    Bool × ResultCache :=
  match c.cache.find? (fun p => p.1 = k) with
  | none => (false, { c with misses := c.misses + 1 })
  | some e =>
    if c.ttl < now - e.2.created_at then
      (false,
        { c with
            cache := c.cache.filter (fun p => ¬ p.1 = k),
            misses := c.misses + 1 })
    else
      (true,
        { c with
            cache := c.cache.filter (fun p => ¬ p.1 = k) ++ [e],
            hits := c.hits + 1 })

/-- `ResultCache::invalidate`: pop the key and subtract its size. -/
def ResultCache.invalidate (c : ResultCache) (k : CacheKey) : ResultCache :=
  match c.cache.find? (fun p => p.1 = k) with
  | none => c
  | some e =>
    { c with
        cache := c.cache.filter (fun p => ¬ p.1 = k),
        current_memory := c.current_memory - e.2.memory_size }

/-- `ResultCache::invalidate_node`: drop every key of the node and
subtract the total size freed. -/
def ResultCache.invalidate_node (c : ResultCache) (id : NodeId) :
    ResultCache :=
  { c with
      cache := c.cache.filter (fun p => ¬ p.1.node_id = id),
      current_memory :=
        c.current_memory
          - ((c.cache.filter (fun p => p.1.node_id = id)).map
              (fun p => p.2.memory_size)).sum }

/-- `ResultCache::clear`. -/
def ResultCache.clear (c : ResultCache) : ResultCache :=
  { c with cache := [], current_memory := 0 }

/-! ## Execution engine, sequential path (`src/execution/engine.rs`)

The model follows `ExecutionEngine::execute`'s sequential loop (lines
282-309) and `execute_node` (lines 341-435) with the default options
`skip_disabled = true`, `stop_on_error = true`.  The progress tracker's
counters and the events the claims speak about are carried in the state.
The external `cancel()` call is cooperative: the engine only reads the
flag; the model lets the request arrive at the moment the completed
counter reaches `cancelAt` (the spec's scenario cancels upon receiving a
`NodeCompleted` event). -/

/-- The progress events the engine emits per node. -/
inductive EngEvent where
  | started (id : NodeId)
  | completed (id : NodeId)
  | skipped (id : NodeId)
  | errorEv (id : NodeId)
deriving DecidableEq, Repr

/-- Engine-visible errors of the sequential path. -/
inductive EngError where
  | cancelled
  | nodeExecution (id : NodeId)
deriving DecidableEq, Repr

/-- The tracker state the engine mutates: completed and skipped counters,
the cancellation flag, and the emitted event list. -/
structure EngState where
  completed : Nat
  skipped : Nat
  cancelled : Bool
  events : List EngEvent
deriving DecidableEq, Repr

/-- `ExecutionEngine::execute_node`: a disabled node is skipped before
`NodeStarted`; otherwise the node starts, a cache hit skips it, a
successful execution completes it (incrementing the completed counter —
at which point an outstanding cancel request sets the flag), and a
failing execution reports the node error. -/
def execNode (disabled cacheHit execOk : NodeId → Bool)
    (cancelAt : Option Nat) (st : EngState) (n : NodeId) :
    EngState × Except EngError Unit :=
  if disabled n then
    ({ st with
        skipped := st.skipped + 1,
        events := st.events ++ [EngEvent.skipped n] }, .ok ())
  else
    if cacheHit n then
      ({ st with
          skipped := st.skipped + 1,
          events := st.events ++ [EngEvent.started n, EngEvent.skipped n] },
        .ok ())
    else if execOk n then
      ({ st with
          completed := st.completed + 1,
          cancelled := st.cancelled || decide (some (st.completed + 1) = cancelAt),
          events := st.events
            ++ [EngEvent.started n, EngEvent.completed n] }, .ok ())
    else
      ({ st with events := st.events
          ++ [EngEvent.started n, EngEvent.errorEv n] },
        .error (.nodeExecution n))

/-- The sequential execution loop: before each node the engine checks the
cancellation flag and returns `Cancelled`; a node error stops execution
(`stop_on_error`). -/
def engineLoop (disabled cacheHit execOk : NodeId → Bool)
    (cancelAt : Option Nat) :
    List NodeId → EngState → EngState × Except EngError Unit
  | [], st => (st, .ok ())
  | n :: rest, st =>
    if st.cancelled then (st, .error .cancelled)
    else
      match execNode disabled cacheHit execOk cancelAt st n with
      | (st', .ok _) => engineLoop disabled cacheHit execOk cancelAt rest st'
      | (st', .error e) => (st', .error e)

/-- Run the sequential engine from a fresh tracker. -/
def engineRun (disabled cacheHit execOk : NodeId → Bool)
    (cancelAt : Option Nat) (nodes : List NodeId) :
    EngState × Except EngError Unit :=
  engineLoop disabled cacheHit execOk cancelAt nodes ⟨0, 0, false, []⟩

/-- The event trace of a run in which every listed node starts and then
completes. -/
def startCompleteEvents : List NodeId → List EngEvent
  | [] => []
  | n :: rest => EngEvent.started n :: EngEvent.completed n :: startCompleteEvents rest

/-! ## Progress tracker (`src/execution/progress.rs`) -/

/-- `ProgressTracker::progress_percent` from `src/execution/progress.rs`
lines 185-193: returns `100` when the tracker was created with zero total
nodes, otherwise `(completed + skipped) / total * 100`.  The source's `f32`
arithmetic is modelled over `ℚ`. -/
def progress_percent (total completed skipped : Nat) : ℚ :=
  if total = 0 then 100
  else ((completed : ℚ) + (skipped : ℚ)) / (total : ℚ) * 100

/-! ## Chunked processing (`src/core/chunked.rs`)

The model follows `process_chunked` (lines 673-732) with the in-memory
source and sink and the point-wise per-tile closure of
`process_pointwise` (lines 734-759).  Pixels are RGBA quadruples of
`Nat`; buffers carry their dimensions and a total pixel map (out-of-range
reads never occur behind the source's bounds guards).  `u32` arithmetic
is explicit: saturating subtraction is `Nat` subtraction; the additions
of `expand_with_overlap` wrap modulo `2^32`.  The tile dimensions are
taken as parameters, quantified over every positive value and so over
everything `calculate_optimal_tile_size` can produce (the full image
dimensions or values clamped into `[64, 4096]`). -/

/-- One `image::Rgba<u8>` pixel, one `Nat` per channel. -/
structure Rgba where
  r : Nat
  g : Nat
  b : Nat
  a : Nat
deriving DecidableEq, Repr

/-- `image::ImageBuffer<Rgba<u8>, Vec<u8>>`: dimensions plus a total pixel
map. -/
structure ImageBuf where
  width : Nat
  height : Nat
  pix : Nat → Nat → Rgba

/-- `ImageBuffer::new` allocates a zero-initialized buffer. -/
def ImageBuf.new (w h : Nat) : ImageBuf :=
  ⟨w, h, fun _ _ => ⟨0, 0, 0, 0⟩⟩

/-- `TileRegion` from `src/core/chunked.rs` lines 41-52. -/
structure TileRegion where
  x : Nat
  y : Nat
  width : Nat
  height : Nat
deriving DecidableEq, Repr

/-- `2^32`, the wrap-around modulus of the source's `u32` coordinates. -/
def u32Mod : Nat := 4294967296

/-- `TileRegion::expand_with_overlap` (lines 76-88): grow the region by
`overlap` on every side, clamping to the image bounds.  The subtractions
saturate; the additions `right() + overlap` and `bottom() + overlap` are
`u32` and wrap modulo `2^32`. -/
def TileRegion.expand_with_overlap (t : TileRegion) (overlap W H : Nat) : TileRegion :=
  ⟨t.x - overlap, t.y - overlap,
    min ((t.x + t.width + overlap) % u32Mod) W - (t.x - overlap),
    min ((t.y + t.height + overlap) % u32Mod) H - (t.y - overlap)⟩

/-- One raster row of `TileIterator::next` (lines 293-311): starting at
column `x`, emit the clamped tile and continue while the advanced column
`x + tw` stays inside the image.  Fuel-based; `W + 1` fuel suffices for
any `tw ≥ 1`. -/
def rowTilesF (W y h tw : Nat) : Nat → Nat → List TileRegion
  | 0, _ => []
  | fuel + 1, x =>
    TileRegion.mk x y (min tw (W - x)) h ::
      (if x + tw < W then rowTilesF W y h tw fuel (x + tw) else [])

/-- The rows of `TileIterator`: while `y < H`, emit a row of height
`min th (H - y)` and advance by `th`.  Fuel-based; `H + 1` fuel suffices
for any `th ≥ 1`. -/
def tileRowsF (W H tw th : Nat) : Nat → Nat → List TileRegion
  | 0, _ => []
  | fuel + 1, y =>
    if y < H then
      rowTilesF W y (min th (H - y)) tw (W + 1) 0
        ++ tileRowsF W H tw th fuel (y + th)
    else []

/-- All tiles of a `W × H` image in the raster order of `TileIterator`. -/
def tileRegions (W H tw th : Nat) : List TileRegion :=
  tileRowsF W H tw th (H + 1) 0

/-- `MemoryImageSource::read_tile` (lines 581-594): clamp the region to the
image bounds and crop.  Only the pixel data is kept: `process_chunked`
overwrites the returned buffer's region fields (lines 706-707). -/
def readTile (img : ImageBuf) (r : TileRegion) : ImageBuf :=
  ⟨min r.width (img.width - r.x), min r.height (img.height - r.y),
    fun i j => img.pix (min r.x img.width + i) (min r.y img.height + j)⟩

/-- The point-wise per-tile closure of `process_pointwise` (lines
745-753): a fresh zeroed buffer of the tile's dimensions with `f` applied
to every in-bounds pixel. -/
def mapBuf (f : Rgba → Rgba) (b : ImageBuf) : ImageBuf :=
  ⟨b.width, b.height, fun i j =>
    if i < b.width ∧ j < b.height then f (b.pix i j) else ⟨0, 0, 0, 0⟩⟩

/-- `TileBuffer::extract_core` (lines 419-436): copy the core region out
of the processed overlap buffer `d`; source pixels outside `d` leave the
zero of `ImageBuffer::new` in place. -/
def extract_core (d : ImageBuf) (r o : TileRegion) : ImageBuf :=
  ⟨r.width, r.height, fun i j =>
    if i < r.width ∧ j < r.height ∧ i + (r.x - o.x) < d.width
        ∧ j + (r.y - o.y) < d.height then
      d.pix (i + (r.x - o.x)) (j + (r.y - o.y))
    else ⟨0, 0, 0, 0⟩⟩

/-- `MemoryImageSink::write_tile` (lines 643-663): paste the extracted
core at the tile's region, guarding against the output bounds. -/
def write_tile (buf d : ImageBuf) (r o : TileRegion) : ImageBuf :=
  ⟨buf.width, buf.height, fun px py =>
    if r.x ≤ px ∧ px < r.x + r.width ∧ r.y ≤ py ∧ py < r.y + r.height
        ∧ px < buf.width ∧ py < buf.height then
      (extract_core d r o).pix (px - r.x) (py - r.y)
    else buf.pix px py⟩

/-- The tile loop of `process_chunked` (lines 696-726): expand each region
by the overlap, read it, check the memory estimate (input + output, four
bytes per pixel) against the limit — the tracker is balanced, so the
check is just `2 * 4 * area > limit` — then process, write and release.
The only failure of this path is `OutOfMemory`. -/
def processLoop (process_tile : ImageBuf → ImageBuf) (img : ImageBuf)
    (ov memLimit : Nat) : List TileRegion → ImageBuf → Except Unit ImageBuf
  | [], buf => Except.ok buf
  | t :: rest, buf =>
    if memLimit < (readTile img (t.expand_with_overlap ov img.width img.height)).width
        * (readTile img (t.expand_with_overlap ov img.width img.height)).height * 4 * 2 then
      Except.error ()
    else
      processLoop process_tile img ov memLimit rest
        (write_tile buf
          (process_tile (readTile img (t.expand_with_overlap ov img.width img.height)))
          t (t.expand_with_overlap ov img.width img.height))

/-- `process_chunked` (lines 673-732) over the in-memory source and sink:
initialize the sink to a zeroed full-size buffer, then run the tile loop. -/
def process_chunked (process_tile : ImageBuf → ImageBuf) (img : ImageBuf)
    (tw th ov memLimit : Nat) : Except Unit ImageBuf :=
  processLoop process_tile img ov memLimit
    (tileRegions img.width img.height tw th)
    (ImageBuf.new img.width img.height)

/-- `process_pointwise` (lines 734-759): chunked processing with the
point-wise per-tile closure. -/
def process_pointwise (f : Rgba → Rgba) (img : ImageBuf)
    (tw th ov memLimit : Nat) : Except Unit ImageBuf :=
  process_chunked (mapBuf f) img tw th ov memLimit

/-- Project the successful result out of a run (zero image on error). -/
def exceptGet (e : Except Unit ImageBuf) : ImageBuf :=
  match e with
  | Except.ok b => b
  | Except.error _ => ImageBuf.new 0 0

end Ambara

/-! ## Theorems -/

namespace Ambara

/-- Helper: the spec's compatibility relation is reflexive (via its final
"`a` equals `b`" clause). -/
theorem specCompatible_refl (a : PortType) : specCompatible a a = true := by
  cases a <;> simp [specCompatible]

/-- C2: for all port types `a` and `b`, `compatible_with a b` is true exactly
when `a` or `b` is `Any`, or `a` is `Integer` and `b` is `Float`, or both are
`Array` (resp. both `Map`) with compatible element types, or `a = b`; and in
particular `Float` is not compatible with `Integer`. -/
theorem compatible_with_spec :
    (∀ a b : PortType, a.compatible_with b = specCompatible a b)
      ∧ PortType.float.compatible_with PortType.integer = false := by
  constructor
  · intro a b
    induction a generalizing b <;> cases b <;>
      simp_all [PortType.compatible_with, specCompatible, specCompatible_refl]
  · rfl

/-- Helper: every branch of `connect` either leaves the graph unchanged or
returns the fresh id. -/
theorem connect_unchanged_or_ok (g : ProcessingGraph) (fid : ConnectionId)
    (fn tn : NodeId) (fp tp : String) :
    (g.connect fid fn fp tn tp).2 = g
      ∨ (g.connect fid fn fp tn tp).1 = .ok fid := by
  unfold ProcessingGraph.connect
  repeat' split
  all_goals simp

/-- C1: `connect` returns a fresh connection id or exactly one of
NodeNotFound, PortNotFound, TypeMismatch, PortAlreadyConnected,
CycleDetected, the five checks running in that fixed order; on any error
the node map and connection list are unchanged, and on success exactly the
new connection is appended. -/
theorem connect_ordered_checks_no_partial_mutation
    (g : ProcessingGraph) (fid : ConnectionId) (fn tn : NodeId)
    (fp tp : String) :
    (∀ e, (g.connect fid fn fp tn tp).1 = .error e
        → (g.connect fid fn fp tn tp).2 = g)
    ∧ (g.get_node fn = none
        → (g.connect fid fn fp tn tp).1 = .error (.nodeNotFound fn))
    ∧ (∀ fm, g.get_node fn = some fm → g.get_node tn = none
        → (g.connect fid fn fp tn tp).1 = .error (.nodeNotFound tn))
    ∧ (∀ fm tm, g.get_node fn = some fm → g.get_node tn = some tm
        → fm.get_output fp = none
        → (g.connect fid fn fp tn tp).1 = .error (.portNotFound fn fp))
    ∧ (∀ fm tm fd, g.get_node fn = some fm → g.get_node tn = some tm
        → fm.get_output fp = some fd → tm.get_input tp = none
        → (g.connect fid fn fp tn tp).1 = .error (.portNotFound tn tp))
    ∧ (∀ fm tm fd td, g.get_node fn = some fm → g.get_node tn = some tm
        → fm.get_output fp = some fd → tm.get_input tp = some td
        → fd.port_type.compatible_with td.port_type = false
        → (g.connect fid fn fp tn tp).1
            = .error (.typeMismatch fd.port_type td.port_type))
    ∧ (∀ fm tm fd td, g.get_node fn = some fm → g.get_node tn = some tm
        → fm.get_output fp = some fd → tm.get_input tp = some td
        → fd.port_type.compatible_with td.port_type = true
        → g.is_input_connected tn tp = true
        → (g.connect fid fn fp tn tp).1
            = .error (.portAlreadyConnected tn tp))
    ∧ (∀ fm tm fd td, g.get_node fn = some fm → g.get_node tn = some tm
        → fm.get_output fp = some fd → tm.get_input tp = some td
        → fd.port_type.compatible_with td.port_type = true
        → g.is_input_connected tn tp = false
        → g.would_create_cycle fn tn = true
        → (g.connect fid fn fp tn tp).1 = .error (.cycleDetected [fn, tn]))
    ∧ (∀ fm tm fd td, g.get_node fn = some fm → g.get_node tn = some tm
        → fm.get_output fp = some fd → tm.get_input tp = some td
        → fd.port_type.compatible_with td.port_type = true
        → g.is_input_connected tn tp = false
        → g.would_create_cycle fn tn = false
        → (g.connect fid fn fp tn tp).1 = .ok fid
          ∧ (g.connect fid fn fp tn tp).2.nodes = g.nodes
          ∧ (g.connect fid fn fp tn tp).2.connections
              = g.connections ++ [⟨fid, fn, fp, tn, tp⟩]) := by
  refine ⟨?_, ?_, ?_, ?_, ?_, ?_, ?_, ?_, ?_⟩
  · intro e h
    rcases connect_unchanged_or_ok g fid fn tn fp tp with h2 | hok
    · exact h2
    · rw [hok] at h; cases h
  · intro h1; simp [ProcessingGraph.connect, h1]
  · intro fm h1 h2; simp [ProcessingGraph.connect, h1, h2]
  · intro fm tm h1 h2 h3; simp [ProcessingGraph.connect, h1, h2, h3]
  · intro fm tm fd h1 h2 h3 h4; simp [ProcessingGraph.connect, h1, h2, h3, h4]
  · intro fm tm fd td h1 h2 h3 h4 h5
    simp [ProcessingGraph.connect, h1, h2, h3, h4, h5]
  · intro fm tm fd td h1 h2 h3 h4 h5 h6
    simp [ProcessingGraph.connect, h1, h2, h3, h4, h5, h6]
  · intro fm tm fd td h1 h2 h3 h4 h5 h6 h7
    simp [ProcessingGraph.connect, h1, h2, h3, h4, h5, h6, h7]
  · intro fm tm fd td h1 h2 h3 h4 h5 h6 h7
    refine ⟨?_, ?_, ?_⟩ <;>
      simp [ProcessingGraph.connect, h1, h2, h3, h4, h5, h6, h7]

/-- Witness for C1: on a two-node graph with an Integer output feeding a
Float input, every check passes and `connect` appends exactly the new
connection; on the empty graph `connect` fails with NodeNotFound and the
graph is unchanged. -/
theorem connect_ordered_checks_no_partial_mutation_witness :
    (ProcessingGraph.connect
        ⟨[(0, ⟨[], [⟨"out", PortType.integer⟩]⟩),
          (1, ⟨[⟨"in", PortType.float⟩], []⟩)], []⟩ 7 0 "out" 1 "in").1
      = .ok 7
    ∧ (ProcessingGraph.connect
        ⟨[(0, ⟨[], [⟨"out", PortType.integer⟩]⟩),
          (1, ⟨[⟨"in", PortType.float⟩], []⟩)], []⟩ 7 0 "out" 1 "in").2.connections
      = [⟨7, 0, "out", 1, "in"⟩]
    ∧ (ProcessingGraph.connect ⟨[], []⟩ 7 0 "out" 1 "in").1
      = .error (.nodeNotFound 0)
    ∧ (ProcessingGraph.connect ⟨[], []⟩ 7 0 "out" 1 "in").2 = ⟨[], []⟩ := by
  have h := connect_ordered_checks_no_partial_mutation
    ⟨[(0, ⟨[], [⟨"out", PortType.integer⟩]⟩),
      (1, ⟨[⟨"in", PortType.float⟩], []⟩)], []⟩ 7 0 1 "out" "in"
  have h0 := connect_ordered_checks_no_partial_mutation ⟨[], []⟩ 7 0 1 "out" "in"
  obtain ⟨hok, -, hconn⟩ :=
    h.2.2.2.2.2.2.2.2 ⟨[], [⟨"out", PortType.integer⟩]⟩
      ⟨[⟨"in", PortType.float⟩], []⟩ ⟨"out", PortType.integer⟩
      ⟨"in", PortType.float⟩ (by decide) (by decide) (by decide) (by decide)
      (by decide) (by decide) (by decide)
  have hnf := h0.2.1 (by decide)
  exact ⟨hok, by simpa using hconn, hnf, h0.1 _ hnf⟩

/-- Counterexample for C9: a self-loop does not always return CycleDetected
— on a node whose output is Float and input is Integer, the earlier type
check fires first and `connect` returns TypeMismatch. -/
theorem self_loop_counterexample :
    (ProcessingGraph.connect
        ⟨[(0, ⟨[⟨"in", PortType.integer⟩], [⟨"out", PortType.float⟩]⟩)], []⟩
        5 0 "out" 0 "in").1
      = .error (.typeMismatch PortType.float PortType.integer)
    ∧ ∀ ns,
      (ProcessingGraph.connect
          ⟨[(0, ⟨[⟨"in", PortType.integer⟩], [⟨"out", PortType.float⟩]⟩)], []⟩
          5 0 "out" 0 "in").1
        ≠ .error (.cycleDetected ns) := by
  constructor
  · rfl
  · intro ns h
    have h' :
        (ProcessingGraph.connect
            ⟨[(0, ⟨[⟨"in", PortType.integer⟩], [⟨"out", PortType.float⟩]⟩)], []⟩
            5 0 "out" 0 "in").1
          = .error (.typeMismatch PortType.float PortType.integer) := by rfl
    rw [h'] at h
    simp at h

/-- C9 (amended): every node is reachable from itself, so once the earlier
checks pass — the node exists, both ports exist, the types are compatible
and the input port is free — a self-loop `connect(n, out, n, in)` always
returns CycleDetected and leaves the graph unchanged, even with no other
connections present. -/
theorem self_loop_cycle_detected
    (g : ProcessingGraph) (fid : ConnectionId) (n : NodeId)
    (op ip : String) (m : NodeMetadata) (od idf : PortDefinition)
    (hn : g.get_node n = some m)
    (ho : m.get_output op = some od)
    (hi : m.get_input ip = some idf)
    (hc : od.port_type.compatible_with idf.port_type = true)
    (hfree : g.is_input_connected n ip = false) :
    g.is_reachable n n = true
    ∧ (g.connect fid n op n ip).1 = .error (.cycleDetected [n, n])
    ∧ (g.connect fid n op n ip).2 = g := by
  have hreach : g.is_reachable n n = true := by
    simp [ProcessingGraph.is_reachable]
  refine ⟨hreach, ?_, ?_⟩ <;>
    simp [ProcessingGraph.connect, hn, ho, hi, hc, hfree,
      ProcessingGraph.would_create_cycle, hreach]

/-- Witness for C9 (amended): a single node with a compatible Float output
and Float input; the self-loop is rejected as CycleDetected and the graph
is unchanged. -/
theorem self_loop_cycle_detected_witness :
    (ProcessingGraph.connect
        ⟨[(0, ⟨[⟨"in", PortType.float⟩], [⟨"out", PortType.float⟩]⟩)], []⟩
        5 0 "out" 0 "in").1
      = .error (.cycleDetected [0, 0])
    ∧ (ProcessingGraph.connect
        ⟨[(0, ⟨[⟨"in", PortType.float⟩], [⟨"out", PortType.float⟩]⟩)], []⟩
        5 0 "out" 0 "in").2
      = ⟨[(0, ⟨[⟨"in", PortType.float⟩], [⟨"out", PortType.float⟩]⟩)], []⟩ := by
  have h := self_loop_cycle_detected
    ⟨[(0, ⟨[⟨"in", PortType.float⟩], [⟨"out", PortType.float⟩]⟩)], []⟩
    5 0 "out" "in" ⟨[⟨"in", PortType.float⟩], [⟨"out", PortType.float⟩]⟩
    ⟨"out", PortType.float⟩ ⟨"in", PortType.float⟩
    (by decide) (by decide) (by decide) (by decide) (by decide)
  exact ⟨h.2.1, h.2.2⟩

/-! ### Kahn's algorithm: loop lemmas -/

/-- Lookup distributes over a cons cell. -/
theorem lookupDeg_cons (p : NodeId × Nat) (rest : List (NodeId × Nat))
    (m : NodeId) :
    lookupDeg (p :: rest) m = if p.1 = m then p.2 else lookupDeg rest m := by
  by_cases h : p.1 = m <;> simp [lookupDeg, List.find?_cons, h]

/-- Decrementing key `x` changes exactly the looked-up value of `x`. -/
theorem lookupDeg_decDeg (deg : List (NodeId × Nat)) (x m : NodeId) :
    lookupDeg (decDeg deg x) m
      = if m = x then lookupDeg deg m - 1 else lookupDeg deg m := by
  induction deg with
  | nil => simp [lookupDeg, decDeg]
  | cons p rest ih =>
    have hcons : decDeg (p :: rest) x
        = (if p.1 = x then (p.1, p.2 - 1) else p) :: decDeg rest x := rfl
    rw [hcons]
    by_cases hpx : p.1 = x
    · rw [if_pos hpx, lookupDeg_cons, lookupDeg_cons]
      by_cases hpm : p.1 = m
      · have hmx : m = x := by rw [← hpm, hpx]
        simp [hpm, hmx]
      · have hmx : ¬ m = x := fun h => hpm (by rw [hpx, ← h])
        simp [hpm, hmx, ih]
    · rw [if_neg hpx, lookupDeg_cons, lookupDeg_cons]
      by_cases hpm : p.1 = m
      · have hmx : ¬ m = x := fun h => hpx (by rw [hpm, h])
        simp [hpm, hmx]
      · simp [hpm, ih]

/-- Looking up a key of `degAfter` returns its `inDegExcept` value. -/
theorem lookupDeg_degAfter (g : ProcessingGraph) (order res : List NodeId)
    (n : NodeId) (hn : n ∈ order) :
    lookupDeg (degAfter g order res) n = inDegExcept g res n := by
  induction order with
  | nil => cases hn
  | cons m rest ih =>
    rcases List.mem_cons.mp hn with h | h
    · subst h; simp [lookupDeg, degAfter]
    · by_cases hm : m = n
      · subst hm; simp [lookupDeg, degAfter]
      · simpa [lookupDeg, degAfter, hm] using ih h

/-- `decDeg` acts pointwise on a keyed map. -/
theorem decDeg_map (order : List NodeId) (v : NodeId → Nat) (x : NodeId) :
    decDeg (order.map (fun n => (n, v n))) x
      = order.map (fun n => (n, if n = x then v n - 1 else v n)) := by
  induction order with
  | nil => rfl
  | cons m rest ih =>
    by_cases hm : m = x <;> simp_all [decDeg]

/-- Folding `decDeg` over a list of keys subtracts each key's
multiplicity. -/
theorem foldl_decDeg_map (ns : List NodeId) :
    ∀ (order : List NodeId) (v : NodeId → Nat),
      ns.foldl decDeg (order.map (fun n => (n, v n)))
        = order.map (fun n => (n, v n - ns.count n)) := by
  induction ns with
  | nil => intro order v; simp
  | cons x ns ih =>
    intro order v
    rw [List.foldl_cons, decDeg_map, ih]
    refine List.map_congr_left (fun n _ => ?_)
    by_cases hn : n = x <;> simp [hn, List.count_cons] <;> omega

/-- Emitting `node` removes exactly its out-edges into `n` from the
pending in-degree of `n`. -/
theorem inDegExcept_append (g : ProcessingGraph) (res : List NodeId)
    (node n : NodeId) (hnode : node ∉ res) :
    inDegExcept g (res ++ [node]) n + (g.adjOf node).count n
      = inDegExcept g res n := by
  unfold inDegExcept ProcessingGraph.adjOf
  induction g.connections with
  | nil => simp
  | cons c cs ih =>
    by_cases h1 : c.toNode = n <;> by_cases h2 : c.fromNode = node <;>
      by_cases h3 : c.fromNode ∈ res <;>
      simp_all [List.count_cons] <;> omega

/-- The in-degree list after `relaxAll` is the `decDeg` fold. -/
theorem relaxAll_fst (ns : List NodeId) :
    ∀ (deg : List (NodeId × Nat)) (pushed : List NodeId),
      (relaxAll deg pushed ns).1 = ns.foldl decDeg deg := by
  induction ns with
  | nil => intro deg pushed; rfl
  | cons x ns ih =>
    intro deg pushed
    by_cases h : lookupDeg deg x = 1 <;> simp [relaxAll, h, ih]

/-- Membership in the pushed list of `relaxAll`: the accumulator, plus
the keys whose stored degree is positive and at most their multiplicity
among the neighbours (those are exactly the degrees that hit zero). -/
theorem relaxAll_mem_snd (ns : List NodeId) :
    ∀ (deg : List (NodeId × Nat)) (pushed : List NodeId) (m : NodeId),
      (m ∈ (relaxAll deg pushed ns).2)
        ↔ m ∈ pushed
            ∨ (1 ≤ lookupDeg deg m ∧ lookupDeg deg m ≤ ns.count m) := by
  induction ns with
  | nil =>
    intro deg pushed m
    simp only [relaxAll, List.count_nil]
    constructor
    · exact Or.inl
    · rintro (h | ⟨h1, h2⟩)
      · exact h
      · omega
  | cons x ns ih =>
    intro deg pushed m
    by_cases hmx : m = x
    · subst hmx
      have hc : (m :: ns).count m = ns.count m + 1 := by
        simp [List.count_cons]
      by_cases hx : lookupDeg deg m = 1
      · rw [relaxAll, if_pos hx, ih]
        have hd : lookupDeg (decDeg deg m) m = 0 := by
          rw [lookupDeg_decDeg, if_pos rfl, hx]
        rw [hd, hc]
        constructor
        · intro _; right; rw [hx]; omega
        · intro _; exact Or.inl (by simp)
      · rw [relaxAll, if_neg hx, ih]
        have hd : lookupDeg (decDeg deg m) m = lookupDeg deg m - 1 := by
          rw [lookupDeg_decDeg, if_pos rfl]
        rw [hd, hc]
        constructor
        · rintro (h | ⟨h1, h2⟩)
          · exact Or.inl h
          · right; omega
        · rintro (h | ⟨h1, h2⟩)
          · exact Or.inl h
          · right; omega
    · have hd : lookupDeg (decDeg deg x) m = lookupDeg deg m := by
        rw [lookupDeg_decDeg, if_neg hmx]
      have hc : (x :: ns).count m = ns.count m := by
        simp [List.count_cons, hmx]
      by_cases hx : lookupDeg deg x = 1
      · rw [relaxAll, if_pos hx, ih, hd, hc]
        simp [hmx]
      · rw [relaxAll, if_neg hx, ih, hd, hc]

/-- The pushed list of `relaxAll` stays duplicate-free: a key is pushed
only at the moment its degree is exactly 1, after which it reads 0. -/
theorem relaxAll_nodup (ns : List NodeId) :
    ∀ (deg : List (NodeId × Nat)) (pushed : List NodeId),
      pushed.Nodup → (∀ m ∈ pushed, lookupDeg deg m = 0) →
      (relaxAll deg pushed ns).2.Nodup := by
  induction ns with
  | nil => intro deg pushed h _; exact h
  | cons x ns ih =>
    intro deg pushed hnd hzero
    by_cases hx : lookupDeg deg x = 1
    · rw [relaxAll, if_pos hx]
      refine ih _ _ ?_ ?_
      · refine List.Nodup.append hnd (List.nodup_singleton x) ?_
        intro a ha hb
        rw [List.mem_singleton] at hb
        have h0 := hzero a ha
        rw [hb, hx] at h0
        omega
      · intro m hm
        rcases List.mem_append.mp hm with h | h
        · have h0 := hzero m h
          rw [lookupDeg_decDeg]
          split <;> omega
        · rw [List.mem_singleton] at h
          subst h
          rw [lookupDeg_decDeg, if_pos rfl, hx]
    · rw [relaxAll, if_neg hx]
      refine ih _ _ hnd ?_
      intro m hm
      have h0 := hzero m hm
      rw [lookupDeg_decDeg]
      split <;> omega

/-- Decrementing never increases the stored degree sum. -/
theorem degSum_decDeg_le (deg : List (NodeId × Nat)) (x : NodeId) :
    degSum (decDeg deg x) ≤ degSum deg := by
  induction deg with
  | nil => simp [degSum, decDeg]
  | cons p rest ih =>
    have hcons : decDeg (p :: rest) x
        = (if p.1 = x then (p.1, p.2 - 1) else p) :: decDeg rest x := rfl
    rw [hcons]
    simp only [degSum, List.map_cons, List.sum_cons] at *
    split <;> simp <;> omega

/-- Decrementing a key of positive stored degree strictly decreases the
sum. -/
theorem degSum_decDeg_lt (deg : List (NodeId × Nat)) (x : NodeId)
    (h : 1 ≤ lookupDeg deg x) :
    degSum (decDeg deg x) + 1 ≤ degSum deg := by
  induction deg with
  | nil => simp [lookupDeg] at h
  | cons p rest ih =>
    have hcons : decDeg (p :: rest) x
        = (if p.1 = x then (p.1, p.2 - 1) else p) :: decDeg rest x := rfl
    rw [lookupDeg_cons] at h
    rw [hcons]
    by_cases hpx : p.1 = x
    · rw [if_pos hpx] at *
      have hle := degSum_decDeg_le rest x
      simp only [degSum, List.map_cons, List.sum_cons] at *
      omega
    · rw [if_neg hpx] at *
      have := ih h
      simp only [degSum, List.map_cons, List.sum_cons] at *
      omega

/-- Fuel lemma: relaxing neighbours pays for every push out of the degree
sum. -/
theorem relaxAll_degSum (ns : List NodeId) :
    ∀ (deg : List (NodeId × Nat)) (pushed : List NodeId),
      degSum (relaxAll deg pushed ns).1 + (relaxAll deg pushed ns).2.length
        ≤ degSum deg + pushed.length := by
  induction ns with
  | nil => intro deg pushed; simp [relaxAll]
  | cons x ns ih =>
    intro deg pushed
    by_cases hx : lookupDeg deg x = 1
    · rw [relaxAll, if_pos hx]
      have h1 := ih (decDeg deg x) (pushed ++ [x])
      have h2 := degSum_decDeg_lt deg x (by omega)
      simp only [List.length_append, List.length_singleton] at h1
      omega
    · rw [relaxAll, if_neg hx]
      have h1 := ih (decDeg deg x) pushed
      have h2 := degSum_decDeg_le deg x
      omega

/-- Relaxing the neighbours of a freshly emitted node turns the in-degree
map for `res` into the one for `res ++ [node]`. -/
theorem relaxAll_fst_degAfter (g : ProcessingGraph) (order res : List NodeId)
    (node : NodeId) (pushed : List NodeId) (hnode : node ∉ res) :
    (relaxAll (degAfter g order res) pushed (g.adjOf node)).1
      = degAfter g order (res ++ [node]) := by
  rw [relaxAll_fst]
  unfold degAfter
  rw [foldl_decDeg_map]
  refine List.map_congr_left (fun n _ => ?_)
  have h := inDegExcept_append g res node n hnode
  simp only [Prod.mk.injEq, true_and]
  omega

/-- Keys absent from the in-degree map read 0. -/
theorem lookupDeg_degAfter_not_mem (g : ProcessingGraph)
    (order res : List NodeId) (n : NodeId) (hn : n ∉ order) :
    lookupDeg (degAfter g order res) n = 0 := by
  induction order with
  | nil => simp [lookupDeg, degAfter]
  | cons m rest ih =>
    have hmn : ¬ m = n := fun h => hn (h ▸ List.mem_cons_self m rest)
    have hrest : n ∉ rest := fun h => hn (List.mem_cons_of_mem m h)
    simpa [degAfter, lookupDeg_cons, hmn] using ih hrest

/-- Pending in-degree zero means every incoming connection's source is
already emitted. -/
theorem inDegExcept_eq_zero_iff (g : ProcessingGraph) (res : List NodeId)
    (n : NodeId) :
    inDegExcept g res n = 0
      ↔ ∀ c ∈ g.connections, c.toNode = n → c.fromNode ∈ res := by
  unfold inDegExcept
  rw [List.length_eq_zero, List.filter_eq_nil]
  constructor
  · intro h c hc ht
    by_contra hf
    have := h c hc
    simp [ht, hf] at this
  · intro h c hc
    by_cases ht : c.toNode = n
    · simp [ht, h c hc ht]
    · simp [ht]

/-- Pending in-degree only shrinks as nodes are emitted. -/
theorem inDegExcept_append_le (g : ProcessingGraph) (res : List NodeId)
    (node n : NodeId) (hnode : node ∉ res) :
    inDegExcept g (res ++ [node]) n ≤ inDegExcept g res n := by
  have := inDegExcept_append g res node n hnode
  omega

/-- With no node emitted, the pending in-degree is the in-degree. -/
theorem inDegExcept_nil (g : ProcessingGraph) (n : NodeId) :
    inDegExcept g [] n = g.inDegreeOf n := by
  unfold inDegExcept ProcessingGraph.inDegreeOf
  congr 1
  refine List.filter_congr (fun c _ => ?_)
  simp

/-- Filtering a keyed map on its values and projecting the keys is a
filter on the key list. -/
theorem map_filter_map_fst (order : List NodeId) (f : NodeId → Nat)
    (P : Nat → Bool) :
    (((order.map (fun n => (n, f n))).filter (fun p => P p.2)).map
        (fun p => p.1))
      = order.filter (fun n => P (f n)) := by
  induction order with
  | nil => rfl
  | cons m rest ih =>
    by_cases h : P (f m) <;> simp [List.filter_cons, h, ih]

/-- The main preservation lemma: one iteration of Kahn's loop keeps the
invariant, with the popped node appended to the emitted list. -/
theorem loopInv_step (g : ProcessingGraph) (order : List NodeId)
    (node : NodeId) (rest : List NodeId) (deg : List (NodeId × Nat))
    (res : List NodeId)
    (hinv : LoopInv g order (node :: rest) deg res) :
    LoopInv g order (rest ++ (relaxAll deg [] (g.adjOf node)).2)
      (relaxAll deg [] (g.adjOf node)).1 (res ++ [node]) := by
  obtain ⟨hdeg, hqnd, hrnd, hq, hcomp, hsub, hord⟩ := hinv
  obtain ⟨hnode_ord, hnode_res, hnode_zero⟩ := hq node (List.mem_cons_self node rest)
  have hnode_rest : node ∉ rest := (List.nodup_cons.mp hqnd).1
  have hrest_nd : rest.Nodup := (List.nodup_cons.mp hqnd).2
  -- every edge into `node` already has its source emitted
  have hnode_closed := (inDegExcept_eq_zero_iff g res node).mp hnode_zero
  -- closure of `res` gives zero pending degree for emitted nodes
  have hres_zero : ∀ m ∈ res, inDegExcept g res m = 0 := by
    intro m hm
    exact (inDegExcept_eq_zero_iff g res m).mpr
      (fun c hc ht => (hord c hc (ht ▸ hm)).1)
  -- lookups on the current map
  have hlook : ∀ m ∈ order, lookupDeg deg m = inDegExcept g res m := by
    intro m hm
    rw [hdeg]; exact lookupDeg_degAfter g order res m hm
  have hlook0 : ∀ m, m ∉ order → lookupDeg deg m = 0 := by
    intro m hm
    rw [hdeg]; exact lookupDeg_degAfter_not_mem g order res m hm
  -- pushed membership in terms of the graph
  have hpush : ∀ m, m ∈ (relaxAll deg [] (g.adjOf node)).2
      ↔ (1 ≤ lookupDeg deg m ∧ lookupDeg deg m ≤ (g.adjOf node).count m) := by
    intro m
    rw [relaxAll_mem_snd]
    simp
  have hpush_ord : ∀ m ∈ (relaxAll deg [] (g.adjOf node)).2, m ∈ order := by
    intro m hm
    by_contra hmo
    have := (hpush m).mp hm
    rw [hlook0 m hmo] at this
    omega
  refine ⟨?_, ?_, ?_, ?_, ?_, ?_, ?_⟩
  · rw [hdeg] at *
    exact relaxAll_fst_degAfter g order res node [] hnode_res
  · refine List.Nodup.append hrest_nd ?_ ?_
    · exact relaxAll_nodup (g.adjOf node) deg [] List.nodup_nil (by simp)
    · intro a ha hb
      have h1 := (hpush a).mp hb
      have h2 := (hq a (List.mem_cons_of_mem node ha)).2.2
      rw [hlook a (hq a (List.mem_cons_of_mem node ha)).1, h2] at h1
      omega
  · refine List.Nodup.append hrnd (List.nodup_singleton node) ?_
    intro a ha hb
    rw [List.mem_singleton] at hb
    exact hnode_res (hb ▸ ha)
  · intro n hn
    rcases List.mem_append.mp hn with h | h
    · obtain ⟨h1, h2, h3⟩ := hq n (List.mem_cons_of_mem node h)
      refine ⟨h1, ?_, ?_⟩
      · intro hmem
        rcases List.mem_append.mp hmem with hh | hh
        · exact h2 hh
        · rw [List.mem_singleton] at hh
          exact hnode_rest (hh ▸ h)
      · have := inDegExcept_append_le g res node n hnode_res
        omega
    · have hno := hpush_ord n h
      obtain ⟨h1, h2⟩ := (hpush n).mp h
      rw [hlook n hno] at h1 h2
      have hnres : n ∉ res := by
        intro hmem
        rw [hres_zero n hmem] at h1
        omega
      refine ⟨hno, ?_, ?_⟩
      · intro hmem
        rcases List.mem_append.mp hmem with hh | hh
        · exact hnres hh
        · rw [List.mem_singleton] at hh
          subst hh
          rw [hnode_zero] at h1
          omega
      · have := inDegExcept_append g res node n hnode_res
        omega
  · intro n hno hnres' hzero'
    have hnres : n ∉ res := fun h => hnres' (List.mem_append.mpr (Or.inl h))
    have hnnode : ¬ n = node := fun h =>
      hnres' (List.mem_append.mpr (Or.inr (List.mem_singleton.mpr h)))
    have hid := inDegExcept_append g res node n hnode_res
    by_cases hz : inDegExcept g res n = 0
    · have := hcomp n hno hnres hz
      rcases List.mem_cons.mp this with h | h
      · exact absurd h hnnode
      · exact List.mem_append.mpr (Or.inl h)
    · refine List.mem_append.mpr (Or.inr ((hpush n).mpr ?_))
      rw [hlook n hno]
      omega
  · intro a ha
    rcases List.mem_append.mp ha with h | h
    · exact hsub h
    · rw [List.mem_singleton] at h
      exact h ▸ hnode_ord
  · intro c hc hct
    rcases List.mem_append.mp hct with h | h
    · obtain ⟨h1, h2⟩ := hord c hc h
      refine ⟨List.mem_append.mpr (Or.inl h1), ?_⟩
      rw [List.indexOf_append_of_mem h1, List.indexOf_append_of_mem h]
      exact h2
    · rw [List.mem_singleton] at h
      have hfrom : c.fromNode ∈ res := hnode_closed c hc h
      refine ⟨List.mem_append.mpr (Or.inl hfrom), ?_⟩
      rw [List.indexOf_append_of_mem hfrom, h,
        List.indexOf_append_of_not_mem hnode_res]
      have := List.indexOf_lt_length.mpr hfrom
      simp
      omega

/-- An invariant state with enough fuel runs Kahn's loop to a state
satisfying the postcondition. -/
theorem kahnLoop_post (g : ProcessingGraph) (order : List NodeId) :
    ∀ (fuel : Nat) (queue : List NodeId) (deg : List (NodeId × Nat))
      (res : List NodeId),
      LoopInv g order queue deg res →
      degSum deg + queue.length ≤ fuel →
      LoopPost g order (kahnLoop g.adjOf fuel queue deg res).1
        (kahnLoop g.adjOf fuel queue deg res).2 := by
  intro fuel
  induction fuel with
  | zero =>
    intro queue deg res hinv hfuel
    have hq : queue = [] := by
      cases queue with
      | nil => rfl
      | cons a l => simp at hfuel
    subst hq
    obtain ⟨hdeg, _, hrnd, _, hcomp, hsub, hord⟩ := hinv
    show LoopPost g order res deg
    refine ⟨hdeg, hrnd, hsub, hord, ?_⟩
    intro n hno hnres
    by_contra hz
    have h0 : inDegExcept g res n = 0 := by omega
    exact absurd (hcomp n hno hnres h0) (List.not_mem_nil n)
  | succ fuel ih =>
    intro queue deg res hinv hfuel
    cases queue with
    | nil =>
      obtain ⟨hdeg, _, hrnd, _, hcomp, hsub, hord⟩ := hinv
      show LoopPost g order res deg
      refine ⟨hdeg, hrnd, hsub, hord, ?_⟩
      intro n hno hnres
      by_contra hz
      have h0 : inDegExcept g res n = 0 := by omega
      exact absurd (hcomp n hno hnres h0) (List.not_mem_nil n)
    | cons node rest =>
      have hstep := loopInv_step g order node rest deg res hinv
      have hsum := relaxAll_degSum (g.adjOf node) deg []
      have hfuel' :
          degSum (relaxAll deg [] (g.adjOf node)).1
              + (rest ++ (relaxAll deg [] (g.adjOf node)).2).length ≤ fuel := by
        simp only [List.length_append, List.length_cons] at *
        simp only [List.length_nil] at hsum
        omega
      exact ih (rest ++ (relaxAll deg [] (g.adjOf node)).2)
        (relaxAll deg [] (g.adjOf node)).1 (res ++ [node]) hstep hfuel'

/-- The initial state of Kahn's loop satisfies the invariant. -/
theorem loopInv_init (g : ProcessingGraph) (order : List NodeId)
    (hnd : order.Nodup) :
    LoopInv g order (initQueue g order) (initDeg g order) [] := by
  have hqeq : initQueue g order
      = order.filter (fun n => g.inDegreeOf n = 0) := by
    unfold initQueue initDeg
    exact map_filter_map_fst order (fun n => g.inDegreeOf n)
      (fun v => decide (v = 0))
  have hdeq : initDeg g order = degAfter g order [] := by
    unfold initDeg degAfter
    refine List.map_congr_left (fun n _ => ?_)
    rw [inDegExcept_nil]
  refine ⟨hdeq, ?_, List.nodup_nil, ?_, ?_, ?_, ?_⟩
  · rw [hqeq]; exact hnd.filter _
  · intro n hn
    rw [hqeq, List.mem_filter] at hn
    refine ⟨hn.1, List.not_mem_nil n, ?_⟩
    rw [inDegExcept_nil]
    simpa using hn.2
  · intro n hno _ hz
    rw [hqeq, List.mem_filter]
    rw [inDegExcept_nil] at hz
    exact ⟨hno, by simpa using hz⟩
  · intro a ha; cases ha
  · intro c _ hct; cases hct

/-- Kahn's loop, run from the initial state with the fuel
`topologicalSort` supplies, lands in the postcondition. -/
theorem kahnRun_post (g : ProcessingGraph) (order : List NodeId)
    (hnd : order.Nodup) :
    LoopPost g order (kahnRun g order).1 (kahnRun g order).2 :=
  kahnLoop_post g order _ _ _ _ (loopInv_init g order hnd) (Nat.le_refl _)

/-- A nonempty node set in which every node has a parent inside the set
contains a directed cycle (finite pigeonhole on the parent-choice
orbit). -/
theorem hasCycle_of_closed_parents (g : ProcessingGraph) (ns : List NodeId)
    (hne : ns ≠ []) (hpar : ∀ n ∈ ns, ∃ m ∈ ns, edgeStep g m n) :
    HasCycle g := by
  classical
  obtain ⟨n0, hn0⟩ : ∃ a, a ∈ ns := by
    cases ns with
    | nil => exact absurd rfl hne
    | cons a t => exact ⟨a, List.mem_cons_self a t⟩
  have hstep : ∀ n, ∃ m, n ∈ ns → m ∈ ns ∧ edgeStep g m n := by
    intro n
    by_cases h : n ∈ ns
    · obtain ⟨m, hm, he⟩ := hpar n h
      exact ⟨m, fun _ => ⟨hm, he⟩⟩
    · exact ⟨n0, fun h' => absurd h' h⟩
  choose F hF using hstep
  have horbit : ∀ k, F^[k] n0 ∈ ns := by
    intro k
    induction k with
    | zero => exact hn0
    | succ k ih =>
      rw [Function.iterate_succ_apply']
      exact (hF _ ih).1
  have hedge : ∀ k, edgeStep g (F^[k + 1] n0) (F^[k] n0) := by
    intro k
    rw [Function.iterate_succ_apply']
    exact (hF _ (horbit k)).2
  have hchain : ∀ d i,
      Relation.TransGen (edgeStep g) (F^[i + d + 1] n0) (F^[i] n0) := by
    intro d
    induction d with
    | zero => intro i; exact Relation.TransGen.single (hedge i)
    | succ d ih =>
      intro i
      have harith : i + (d + 1) + 1 = (i + d + 1) + 1 := by omega
      rw [harith]
      exact Relation.TransGen.head (hedge (i + d + 1)) (ih i)
  have hmaps : ∀ k ∈ Finset.range (ns.toFinset.card + 1),
      F^[k] n0 ∈ ns.toFinset := by
    intro k _
    exact List.mem_toFinset.mpr (horbit k)
  obtain ⟨i, _, j, _, hij, heq⟩ :=
    Finset.exists_ne_map_eq_of_card_lt_of_maps_to
      (by rw [Finset.card_range]; omega) hmaps
  rcases Nat.lt_or_ge i j with hlt | hge
  · have hj : j = i + (j - i - 1) + 1 := by omega
    have := hchain (j - i - 1) i
    rw [← hj] at this
    rw [← heq] at this
    exact ⟨F^[i] n0, this⟩
  · have hlt : j < i := by omega
    have hi : i = j + (i - j - 1) + 1 := by omega
    have := hchain (i - j - 1) j
    rw [← hi] at this
    rw [heq] at this
    exact ⟨F^[j] n0, this⟩

/-- `HashMap` iteration order is a permutation of the node ids, so it is
duplicate-free. -/
theorem order_nodup (g : ProcessingGraph) (order : List NodeId)
    (hwf : WellFormed g) (hperm : order.Perm g.node_ids) : order.Nodup :=
  hperm.nodup_iff.mpr hwf.1

/-- The iteration order has as many entries as the node map. -/
theorem order_length (g : ProcessingGraph) (order : List NodeId)
    (hperm : order.Perm g.node_ids) : order.length = g.nodes.length := by
  have h := hperm.length_eq
  unfold ProcessingGraph.node_ids at h
  simpa using h

/-- Emitted nodes have zero pending in-degree. -/
theorem kahn_emitted_zero (g : ProcessingGraph) (order : List NodeId)
    (hwf : WellFormed g) (hperm : order.Perm g.node_ids) :
    ∀ m ∈ (kahnRun g order).1, inDegExcept g (kahnRun g order).1 m = 0 := by
  obtain ⟨_, _, _, hordF, _⟩ :=
    kahnRun_post g order (order_nodup g order hwf hperm)
  exact fun m hm => (inDegExcept_eq_zero_iff g _ m).mpr
    (fun c hc ht => (hordF c hc (ht ▸ hm)).1)

/-- If every node was emitted, the emitted list is a permutation of the
node ids. -/
theorem kahn_perm_of_complete (g : ProcessingGraph) (order : List NodeId)
    (hwf : WellFormed g) (hperm : order.Perm g.node_ids)
    (hcomplete : (kahnRun g order).1.length = g.nodes.length) :
    (kahnRun g order).1.Perm g.node_ids := by
  obtain ⟨_, hndF, hsubF, _, _⟩ :=
    kahnRun_post g order (order_nodup g order hwf hperm)
  have hlen := order_length g order hperm
  exact ((List.subperm_of_subset hndF hsubF).perm_of_length_le
    (by omega)).trans hperm

/-- If every node was emitted, every connection's source precedes its
target in the emitted list. -/
theorem kahn_edge_lt_of_complete (g : ProcessingGraph) (order : List NodeId)
    (hwf : WellFormed g) (hperm : order.Perm g.node_ids)
    (hcomplete : (kahnRun g order).1.length = g.nodes.length) :
    ∀ c ∈ g.connections,
      List.indexOf c.fromNode (kahnRun g order).1
        < List.indexOf c.toNode (kahnRun g order).1 := by
  obtain ⟨_, _, _, hordF, _⟩ :=
    kahnRun_post g order (order_nodup g order hwf hperm)
  intro c hc
  have hto : c.toNode ∈ (kahnRun g order).1 :=
    (kahn_perm_of_complete g order hwf hperm hcomplete).mem_iff.mpr
      (hwf.2 c hc).2
  exact (hordF c hc hto).2

/-- If every node was emitted, the graph is acyclic (a cycle would give a
node strictly before itself). -/
theorem kahn_acyclic_of_complete (g : ProcessingGraph) (order : List NodeId)
    (hwf : WellFormed g) (hperm : order.Perm g.node_ids)
    (hcomplete : (kahnRun g order).1.length = g.nodes.length) :
    ¬ HasCycle g := by
  rintro ⟨n, hn⟩
  have hedge := kahn_edge_lt_of_complete g order hwf hperm hcomplete
  have hlt : ∀ u v, Relation.TransGen (edgeStep g) u v →
      List.indexOf u (kahnRun g order).1
        < List.indexOf v (kahnRun g order).1 := by
    intro u v h
    induction h with
    | single h1 =>
      obtain ⟨c, hc, hcf, hct⟩ := h1
      rw [← hcf, ← hct]
      exact hedge c hc
    | tail _ hbc ih =>
      obtain ⟨c, hc, hcf, hct⟩ := hbc
      refine lt_trans ih ?_
      rw [← hcf, ← hct]
      exact hedge c hc
  exact absurd (hlt n n hn) (lt_irrefl _)

/-- The `remaining` list the source collects on a cycle — the entries of
the final in-degree map with positive value, in map order — is exactly
the unemitted part of the iteration order. -/
theorem kahn_remaining_eq (g : ProcessingGraph) (order : List NodeId)
    (hwf : WellFormed g) (hperm : order.Perm g.node_ids) :
    (((kahnRun g order).2.filter (fun p => 0 < p.2)).map (fun p => p.1))
      = order.filter (fun n => ¬ n ∈ (kahnRun g order).1) := by
  obtain ⟨hdegF, _, _, _, hposF⟩ :=
    kahnRun_post g order (order_nodup g order hwf hperm)
  have hres0 := kahn_emitted_zero g order hwf hperm
  rw [hdegF]
  unfold degAfter
  rw [map_filter_map_fst order (fun n => inDegExcept g (kahnRun g order).1 n)
    (fun v => decide (0 < v))]
  refine List.filter_congr (fun n hn => ?_)
  by_cases hm : n ∈ (kahnRun g order).1
  · simp [hm, hres0 n hm]
  · simp [hm, hposF n hn hm]

/-- Every unemitted node still has an incoming connection from an
unemitted node. -/
theorem kahn_unemitted_parents (g : ProcessingGraph) (order : List NodeId)
    (hwf : WellFormed g) (hperm : order.Perm g.node_ids) :
    ∀ n ∈ order.filter (fun n => ¬ n ∈ (kahnRun g order).1),
      ∃ c ∈ g.connections, c.toNode = n
        ∧ c.fromNode ∈ order.filter
            (fun m => ¬ m ∈ (kahnRun g order).1) := by
  obtain ⟨_, _, _, _, hposF⟩ :=
    kahnRun_post g order (order_nodup g order hwf hperm)
  intro n hn
  rw [List.mem_filter] at hn
  obtain ⟨hno, hnres⟩ := hn
  have hpos := hposF n hno (by simpa using hnres)
  have hnot : ¬ (∀ c ∈ g.connections, c.toNode = n
      → c.fromNode ∈ (kahnRun g order).1) := by
    intro hall
    rw [← inDegExcept_eq_zero_iff] at hall
    omega
  push_neg at hnot
  obtain ⟨c, hc, hct, hcf⟩ := hnot
  exact ⟨c, hc, hct,
    List.mem_filter.mpr
      ⟨hperm.mem_iff.mpr (hwf.2 c hc).1, by simpa using hcf⟩⟩

/-- If some node was never emitted, the graph has a directed cycle. -/
theorem kahn_cycle_of_incomplete (g : ProcessingGraph) (order : List NodeId)
    (hwf : WellFormed g) (hperm : order.Perm g.node_ids)
    (hinc : ¬ (kahnRun g order).1.length = g.nodes.length) : HasCycle g := by
  have hond := order_nodup g order hwf hperm
  obtain ⟨_, hndF, hsubF, _, _⟩ := kahnRun_post g order hond
  have hlen := order_length g order hperm
  have hne : order.filter (fun n => ¬ n ∈ (kahnRun g order).1) ≠ [] := by
    intro hempty
    have hsuborder : order ⊆ (kahnRun g order).1 := by
      intro a ha
      by_contra hnot
      have hmem : a ∈ order.filter (fun n => ¬ n ∈ (kahnRun g order).1) :=
        List.mem_filter.mpr ⟨ha, by simpa using hnot⟩
      rw [hempty] at hmem
      cases hmem
    have h1 : order.length ≤ (kahnRun g order).1.length :=
      (List.subperm_of_subset hond hsuborder).length_le
    have h2 : (kahnRun g order).1.length ≤ order.length :=
      (List.subperm_of_subset hndF hsubF).length_le
    omega
  refine hasCycle_of_closed_parents g
    (order.filter (fun n => ¬ n ∈ (kahnRun g order).1)) hne ?_
  intro n hn
  obtain ⟨c, hc, hct, hcf⟩ := kahn_unemitted_parents g order hwf hperm n hn
  exact ⟨c.fromNode, hcf, c, hc, rfl, hct⟩

/-- On an acyclic graph Kahn's loop emits every node. -/
theorem kahn_complete_of_acyclic (g : ProcessingGraph) (order : List NodeId)
    (hwf : WellFormed g) (hperm : order.Perm g.node_ids)
    (hacyc : ¬ HasCycle g) :
    (kahnRun g order).1.length = g.nodes.length := by
  by_contra hinc
  exact hacyc (kahn_cycle_of_incomplete g order hwf hperm hinc)

/-- C3: on an acyclic graph `topological_sort` returns a list containing
every node exactly once in which no node precedes one of its parents; on a
graph with a directed cycle it returns `CycleDetected` whose node set is
exactly the unemitted nodes — those whose remaining in-degree stayed
positive — each of which still has an incoming connection from the
unemitted set.  `order` is the unspecified `HashMap` iteration order (any
permutation of the node ids). -/
theorem topological_sort_correct (g : ProcessingGraph) (order : List NodeId)
    (hwf : WellFormed g) (hperm : order.Perm g.node_ids) :
    (¬ HasCycle g →
      ∃ l, topologicalSort g order = .ok l
        ∧ l.Perm g.node_ids
        ∧ ∀ c ∈ g.connections,
            List.indexOf c.fromNode l < List.indexOf c.toNode l)
    ∧ (HasCycle g →
      topologicalSort g order
          = .error (.cycleDetected
              (order.filter (fun n => ¬ n ∈ (kahnRun g order).1)))
        ∧ order.filter (fun n => ¬ n ∈ (kahnRun g order).1) ≠ []
        ∧ ∀ n ∈ order.filter (fun n => ¬ n ∈ (kahnRun g order).1),
            ∃ c ∈ g.connections, c.toNode = n
              ∧ c.fromNode ∈ order.filter
                  (fun m => ¬ m ∈ (kahnRun g order).1)) := by
  by_cases hcomplete : (kahnRun g order).1.length = g.nodes.length
  · have hok : topologicalSort g order = .ok (kahnRun g order).1 := by
      unfold topologicalSort
      rw [if_pos hcomplete]
    refine ⟨fun _ => ⟨(kahnRun g order).1, hok,
        kahn_perm_of_complete g order hwf hperm hcomplete,
        kahn_edge_lt_of_complete g order hwf hperm hcomplete⟩,
      fun hc =>
        absurd hc (kahn_acyclic_of_complete g order hwf hperm hcomplete)⟩
  · have herr : topologicalSort g order
        = .error (.cycleDetected
            (order.filter (fun n => ¬ n ∈ (kahnRun g order).1))) := by
      unfold topologicalSort
      rw [if_neg hcomplete, kahn_remaining_eq g order hwf hperm]
    have hne : order.filter (fun n => ¬ n ∈ (kahnRun g order).1) ≠ [] := by
      intro hempty
      have hond := order_nodup g order hwf hperm
      obtain ⟨_, hndF, hsubF, _, _⟩ := kahnRun_post g order hond
      have hlen := order_length g order hperm
      have hsuborder : order ⊆ (kahnRun g order).1 := by
        intro a ha
        by_contra hnot
        have hmem : a ∈ order.filter (fun n => ¬ n ∈ (kahnRun g order).1) :=
          List.mem_filter.mpr ⟨ha, by simpa using hnot⟩
        rw [hempty] at hmem
        cases hmem
      have h1 : order.length ≤ (kahnRun g order).1.length :=
        (List.subperm_of_subset hond hsuborder).length_le
      have h2 : (kahnRun g order).1.length ≤ order.length :=
        (List.subperm_of_subset hndF hsubF).length_le
      omega
    exact ⟨fun hnc =>
        absurd (kahn_cycle_of_incomplete g order hwf hperm hcomplete) hnc,
      fun _ => ⟨herr, hne, kahn_unemitted_parents g order hwf hperm⟩⟩

/-- Witness for C3: on the two-node cycle `0 → 1 → 0` (with iteration
order `[0, 1]`) the sort returns `CycleDetected` with both nodes — the
unemitted, positive-in-degree set. -/
theorem topological_sort_correct_witness :
    topologicalSort
        ⟨[(0, ⟨[], []⟩), (1, ⟨[], []⟩)],
          [⟨8, 0, "out", 1, "in"⟩, ⟨9, 1, "out", 0, "in"⟩]⟩ [0, 1]
      = .error (.cycleDetected [0, 1]) := by
  have e01 : edgeStep
      ⟨[(0, ⟨[], []⟩), (1, ⟨[], []⟩)],
        [⟨8, 0, "out", 1, "in"⟩, ⟨9, 1, "out", 0, "in"⟩]⟩ 0 1 :=
    ⟨⟨8, 0, "out", 1, "in"⟩, List.mem_cons_self _ _, rfl, rfl⟩
  have e10 : edgeStep
      ⟨[(0, ⟨[], []⟩), (1, ⟨[], []⟩)],
        [⟨8, 0, "out", 1, "in"⟩, ⟨9, 1, "out", 0, "in"⟩]⟩ 1 0 :=
    ⟨⟨9, 1, "out", 0, "in"⟩,
      List.mem_cons_of_mem _ (List.mem_cons_self _ _), rfl, rfl⟩
  have hcyc : HasCycle
      ⟨[(0, ⟨[], []⟩), (1, ⟨[], []⟩)],
        [⟨8, 0, "out", 1, "in"⟩, ⟨9, 1, "out", 0, "in"⟩]⟩ :=
    ⟨0, Relation.TransGen.head e01 (Relation.TransGen.single e10)⟩
  have h := (topological_sort_correct
      ⟨[(0, ⟨[], []⟩), (1, ⟨[], []⟩)],
        [⟨8, 0, "out", 1, "in"⟩, ⟨9, 1, "out", 0, "in"⟩]⟩ [0, 1]
      ⟨by decide, by decide⟩ (by decide)).2 hcyc
  exact h.1.trans (by rfl)

/-- C7 (failing input): `topological_sort` seeds its queue by iterating
the `in_degree` `std::collections::HashMap`, whose order is unspecified —
not by node-insertion order.  On a two-node edgeless graph whose nodes
were inserted as 0 then 1, the admissible iteration order `[1, 0]` makes
the sort emit `[1, 0]`, while the order `[0, 1]` makes it emit `[0, 1]`:
the result is not determined by the insertion order `[0, 1]`. -/
theorem topological_sort_hashmap_order_dependent :
    topologicalSort ⟨[(0, ⟨[], []⟩), (1, ⟨[], []⟩)], []⟩ [1, 0] = .ok [1, 0]
      ∧ topologicalSort ⟨[(0, ⟨[], []⟩), (1, ⟨[], []⟩)], []⟩ [0, 1]
          = .ok [0, 1]
      ∧ ProcessingGraph.node_ids ⟨[(0, ⟨[], []⟩), (1, ⟨[], []⟩)], []⟩
          = [0, 1]
      ∧ ([1, 0] : List NodeId) ≠ [0, 1] := by
  exact ⟨rfl, rfl, rfl, by decide⟩

/-! ### Depth map lemmas for `parallel_batches` -/

/-- Every member bounds `foldr max 0` from below. -/
theorem le_foldr_max (l : List Nat) (x : Nat) (hx : x ∈ l) :
    x ≤ l.foldr max 0 := by
  induction l with
  | nil => cases hx
  | cons a t ih =>
    rcases List.mem_cons.mp hx with h | h
    · subst h; exact Nat.le_max_left _ _
    · exact Nat.le_trans (ih h) (Nat.le_max_right _ _)

/-- On a nonempty list, `foldr max 0` is attained by a member. -/
theorem foldr_max_mem (l : List Nat) (hl : l ≠ []) : l.foldr max 0 ∈ l := by
  induction l with
  | nil => exact absurd rfl hl
  | cons a t ih =>
    cases t with
    | nil => simp
    | cons b u =>
      rcases Nat.le_total a ((b :: u).foldr max 0) with h | h
      · rw [List.foldr_cons, Nat.max_eq_right h]
        exact List.mem_cons_of_mem a (ih (by simp))
      · rw [List.foldr_cons, Nat.max_eq_left h]
        exact List.mem_cons_self a _

/-- A `filterMap` that always succeeds is a `map`. -/
theorem filterMap_eq_map_of_some {α β : Type} (f : α → Option β)
    (gf : α → β) (l : List α) (h : ∀ a ∈ l, f a = some (gf a)) :
    l.filterMap f = l.map gf := by
  induction l with
  | nil => rfl
  | cons a t ih =>
    rw [List.filterMap_cons, h a (List.mem_cons_self a t), List.map_cons,
      ih (fun x hx => h x (List.mem_cons_of_mem a hx))]

/-- `findIdx` returns the first index whose element satisfies the
predicate. -/
theorem findIdx_eq_of_first {α : Type} (p : α → Bool) :
    ∀ (l : List α) (d : Nat) (hd : d < l.length),
      (∀ i (hi : i < l.length), i < d → p (l.get ⟨i, hi⟩) = false) →
      p (l.get ⟨d, hd⟩) = true → l.findIdx p = d := by
  intro l
  induction l with
  | nil => intro d hd; cases hd
  | cons x t ih =>
    intro d hd hbefore hat
    cases d with
    | zero =>
      simp only [List.get] at hat
      simp [List.findIdx_cons, hat]
    | succ e =>
      have hx : p x = false := hbefore 0 (by simp) (Nat.succ_pos e)
      simp only [List.length_cons, Nat.succ_lt_succ_iff] at hd
      simp only [List.findIdx_cons, hx, cond_false]
      rw [ih e hd (fun i hi hie => hbefore (i + 1) (by simpa using hi)
        (Nat.succ_lt_succ hie)) (by simpa using hat)]

/-- Summing an indicator over `range k` below the hit index. -/
theorem sum_range_indicator_zero (d0 c : Nat) :
    ∀ k, k ≤ d0 →
      (((List.range k).map (fun d => if d = d0 then c else 0)).sum = 0) := by
  intro k
  induction k with
  | zero => intro _; rfl
  | succ k ih =>
    intro hk
    rw [List.range_succ, List.map_append, List.sum_append,
      ih (Nat.le_of_succ_le hk)]
    have : ¬ k = d0 := by omega
    simp [this]

/-- Summing an indicator over `range k` that hits once. -/
theorem sum_range_indicator (d0 c : Nat) :
    ∀ k, d0 < k →
      (((List.range k).map (fun d => if d = d0 then c else 0)).sum = c) := by
  intro k
  induction k with
  | zero => intro h; cases h
  | succ k ih =>
    intro hk
    rw [List.range_succ, List.map_append, List.sum_append]
    by_cases hkd : k = d0
    · subst hkd
      rw [sum_range_indicator_zero _ _ _ (Nat.le_refl k)]
      simp
    · rw [ih (by omega)]
      simp [hkd]

/-- Lookup survives appending on the right when it already succeeds. -/
theorem lookupDepth_append_of_some (D D' : List (NodeId × Nat))
    (n : NodeId) (v : Nat) (h : lookupDepth D n = some v) :
    lookupDepth (D ++ D') n = some v := by
  unfold lookupDepth at *
  rw [List.find?_append]
  cases hf : D.find? (fun p => p.1 = n) with
  | none => rw [hf] at h; cases h
  | some e => rw [hf] at h; simpa using h

/-- Absent keys look up to `none`. -/
theorem lookupDepth_eq_none (D : List (NodeId × Nat)) (n : NodeId)
    (h : n ∉ D.map (fun p => p.1)) : lookupDepth D n = none := by
  induction D with
  | nil => rfl
  | cons p t ih =>
    have hp : ¬ p.1 = n := fun he => h (by simp [he])
    have ht : n ∉ t.map (fun p => p.1) := fun hm => h (by simp [hm])
    simpa [lookupDepth, List.find?_cons, hp] using ih ht

/-- Present keys look up to `some`. -/
theorem lookupDepth_isSome (D : List (NodeId × Nat)) (n : NodeId)
    (h : n ∈ D.map (fun p => p.1)) : ∃ v, lookupDepth D n = some v := by
  induction D with
  | nil => cases h
  | cons p t ih =>
    by_cases hp : p.1 = n
    · exact ⟨p.2, by simp [lookupDepth, List.find?_cons, hp]⟩
    · have ht : n ∈ t.map (fun q => q.1) := by
        rcases List.mem_map.mp h with ⟨q, hq, hqe⟩
        rcases List.mem_cons.mp hq with h1 | h1
        · exact absurd (h1 ▸ hqe) hp
        · exact List.mem_map.mpr ⟨q, h1, hqe⟩
      obtain ⟨v, hv⟩ := ih ht
      exact ⟨v, by simpa [lookupDepth, List.find?_cons, hp] using hv⟩

/-- Appending a fresh key makes it look up to its value. -/
theorem lookupDepth_append_fresh (D : List (NodeId × Nat)) (m : NodeId)
    (v : Nat) (h : m ∉ D.map (fun p => p.1)) :
    lookupDepth (D ++ [(m, v)]) m = some v := by
  unfold lookupDepth
  rw [List.find?_append]
  have hn := lookupDepth_eq_none D m h
  unfold lookupDepth at hn
  cases hf : D.find? (fun p => p.1 = m) with
  | none => simp [List.find?_cons]
  | some e => rw [hf] at hn; simp at hn

/-- The depth fold records exactly the processed keys, in order. -/
theorem depthList_keys_aux (g : ProcessingGraph) (l : List NodeId) :
    ∀ acc : List (NodeId × Nat),
      ((l.foldl (fun acc n => acc ++ [(n, depthValue g acc n)]) acc).map
          (fun p => p.1))
        = acc.map (fun p => p.1) ++ l := by
  induction l with
  | nil => intro acc; simp
  | cons n t ih =>
    intro acc
    rw [List.foldl_cons, ih]
    simp

/-- `depthList` keys are the sorted list itself. -/
theorem depthList_keys (g : ProcessingGraph) (l : List NodeId) :
    (depthList g l).map (fun p => p.1) = l := by
  unfold depthList
  simpa using depthList_keys_aux g l []

/-- One more node extends the depth map by its computed value. -/
theorem depthList_snoc (g : ProcessingGraph) (l : List NodeId) (m : NodeId) :
    depthList g (l ++ [m])
      = depthList g l ++ [(m, depthValue g (depthList g l) m)] := by
  unfold depthList
  rw [List.foldl_append]
  rfl

/-- A parent-closed topological list restricts to any snoc prefix, and
the parents of the last node all lie in the prefix. -/
theorem parentClosed_of_snoc (g : ProcessingGraph) (l : List NodeId)
    (m : NodeId) (hm : m ∉ l)
    (H : ∀ c ∈ g.connections, c.toNode ∈ l ++ [m] →
      c.fromNode ∈ l ++ [m]
        ∧ List.indexOf c.fromNode (l ++ [m])
            < List.indexOf c.toNode (l ++ [m])) :
    (∀ c ∈ g.connections, c.toNode ∈ l →
      c.fromNode ∈ l
        ∧ List.indexOf c.fromNode l < List.indexOf c.toNode l)
    ∧ (∀ c ∈ g.connections, c.toNode = m → c.fromNode ∈ l) := by
  have hidxm : List.indexOf m (l ++ [m]) = l.length := by
    rw [List.indexOf_append_of_not_mem hm]
    simp
  constructor
  · intro c hc hct
    obtain ⟨hf, hidx⟩ := H c hc (List.mem_append.mpr (Or.inl hct))
    have hto_lt : List.indexOf c.toNode (l ++ [m]) < l.length := by
      rw [List.indexOf_append_of_mem hct]
      exact List.indexOf_lt_length.mpr hct
    have hfl : c.fromNode ∈ l := by
      rcases List.mem_append.mp hf with h | h
      · exact h
      · rw [List.mem_singleton] at h
        rw [h, hidxm] at hidx
        omega
    refine ⟨hfl, ?_⟩
    rw [List.indexOf_append_of_mem hfl, List.indexOf_append_of_mem hct] at hidx
    exact hidx
  · intro c hc hct
    obtain ⟨hf, hidx⟩ := H c hc
      (List.mem_append.mpr (Or.inr (List.mem_singleton.mpr hct)))
    rw [hct, hidxm] at hidx
    rcases List.mem_append.mp hf with h | h
    · exact h
    · rw [List.mem_singleton] at h
      rw [h, hidxm] at hidx
      omega

/-- Characterization of the finished depth map: on a duplicate-free,
parent-closed topological list, every node's recorded depth satisfies the
longest-path recurrence relative to the finished map itself. -/
theorem depthList_char (g : ProcessingGraph) :
    ∀ l : List NodeId, l.Nodup →
      (∀ c ∈ g.connections, c.toNode ∈ l →
        c.fromNode ∈ l
          ∧ List.indexOf c.fromNode l < List.indexOf c.toNode l) →
      ∀ n ∈ l, lookupDepth (depthList g l) n
        = some (depthValue g (depthList g l) n) := by
  intro l
  induction l using List.reverseRecOn with
  | nil => intro _ _ n hn; cases hn
  | append_singleton l m ih =>
    intro hnd H n hn
    have hndl : l.Nodup := (List.nodup_append.mp hnd).1
    have hm : m ∉ l := by
      intro hml
      exact (List.nodup_append.mp hnd).2.2 hml (List.mem_singleton.mpr rfl)
    obtain ⟨Hl, Hm⟩ := parentClosed_of_snoc g l m hm H
    rw [depthList_snoc]
    have hcong : ∀ (vm : Nat) (x : NodeId),
        (∀ c ∈ g.connections, c.toNode = x → c.fromNode ∈ l) →
        depthValue g (depthList g l ++ [(m, vm)]) x
          = depthValue g (depthList g l) x := by
      intro vm x hx
      unfold depthValue
      by_cases hce : g.connections_to x = []
      · simp [hce]
      · rw [if_neg hce, if_neg hce]
        have heq : (g.connections_to x).filterMap
            (fun c => lookupDepth (depthList g l ++ [(m, vm)]) c.fromNode)
            = (g.connections_to x).filterMap
              (fun c => lookupDepth (depthList g l) c.fromNode) := by
          refine List.filterMap_congr (fun c hc => ?_)
          have hcmem : c ∈ g.connections ∧ c.toNode = x := by
            unfold ProcessingGraph.connections_to at hc
            have h := List.mem_filter.mp hc
            exact ⟨h.1, by simpa using h.2⟩
          have hfl : c.fromNode ∈ (depthList g l).map (fun p => p.1) := by
            rw [depthList_keys]
            exact hx c hcmem.1 hcmem.2
          obtain ⟨v, hv⟩ := lookupDepth_isSome _ _ hfl
          rw [hv]
          exact lookupDepth_append_of_some _ _ _ _ hv
        rw [heq]
    rcases List.mem_append.mp hn with h | h
    · have hch := ih hndl Hl n h
      have hkn : n ∈ (depthList g l).map (fun p => p.1) := by
        rw [depthList_keys]; exact h
      obtain ⟨v, hv⟩ := lookupDepth_isSome _ _ hkn
      have h1 : lookupDepth
          (depthList g l ++ [(m, depthValue g (depthList g l) m)]) n
            = lookupDepth (depthList g l) n := by
        rw [hv]
        exact lookupDepth_append_of_some _ _ _ _ hv
      rw [h1, hch, hcong _ n (fun c hc hct => (Hl c hc (hct ▸ h)).1)]
    · rw [List.mem_singleton] at h
      subst h
      have hkm : n ∉ (depthList g l).map (fun p => p.1) := by
        rw [depthList_keys]; exact hm
      rw [lookupDepth_append_fresh _ _ _ hkm, hcong _ n Hm]

/-- A successful lookup's value occurs among the map's values. -/
theorem lookupDepth_mem_values (D : List (NodeId × Nat)) (n : NodeId)
    (v : Nat) (h : lookupDepth D n = some v) :
    v ∈ D.map (fun p => p.2) := by
  unfold lookupDepth at h
  cases hf : D.find? (fun p => p.1 = n) with
  | none => rw [hf] at h; cases h
  | some e =>
    rw [hf] at h
    simp only [Option.map] at h
    rw [Option.some.injEq] at h
    exact List.mem_map.mpr ⟨e, List.mem_of_find?_eq_some hf, h⟩

/-- With duplicate-free keys, membership determines the lookup. -/
theorem lookupDepth_of_mem_nodup (D : List (NodeId × Nat))
    (hnd : (D.map (fun p => p.1)).Nodup) (k : NodeId) (v : Nat)
    (hm : (k, v) ∈ D) : lookupDepth D k = some v := by
  induction D with
  | nil => cases hm
  | cons p t ih =>
    rw [List.map_cons, List.nodup_cons] at hnd
    rcases List.mem_cons.mp hm with h | h
    · rw [← h]
      simp [lookupDepth, List.find?_cons]
    · have hp : ¬ p.1 = k := by
        intro he
        exact hnd.1 (he ▸ List.mem_map.mpr ⟨(k, v), h, rfl⟩)
      simpa [lookupDepth, List.find?_cons, hp] using ih hnd.2 h

/-- Membership in `connections_to` unpacked. -/
theorem mem_connections_to (g : ProcessingGraph) (n : NodeId)
    (c : Connection) (hc : c ∈ g.connections_to n) :
    c ∈ g.connections ∧ c.toNode = n := by
  unfold ProcessingGraph.connections_to at hc
  have h := List.mem_filter.mp hc
  exact ⟨h.1, by simpa using h.2⟩

/-- A connection into `n` witnesses `c ∈ connections_to n`. -/
theorem mem_connections_to_of (g : ProcessingGraph) (c : Connection)
    (hc : c ∈ g.connections) : c ∈ g.connections_to c.toNode := by
  unfold ProcessingGraph.connections_to
  exact List.mem_filter.mpr ⟨hc, by simp⟩

/-- The recorded depth strictly increases along every connection. -/
theorem depth_lt_along_edge (g : ProcessingGraph) (l : List NodeId)
    (hnd : l.Nodup)
    (H : ∀ c ∈ g.connections, c.toNode ∈ l →
      c.fromNode ∈ l
        ∧ List.indexOf c.fromNode l < List.indexOf c.toNode l)
    (hend : ∀ c ∈ g.connections, c.fromNode ∈ l ∧ c.toNode ∈ l) :
    ∀ c ∈ g.connections,
      (lookupDepth (depthList g l) c.fromNode).getD 0
        < (lookupDepth (depthList g l) c.toNode).getD 0 := by
  intro c hc
  have hto := (hend c hc).2
  have hfrom := (hend c hc).1
  have hch := depthList_char g l hnd H c.toNode hto
  have hkf : c.fromNode ∈ (depthList g l).map (fun p => p.1) := by
    rw [depthList_keys]; exact hfrom
  obtain ⟨v, hv⟩ := lookupDepth_isSome _ _ hkf
  have hcne : g.connections_to c.toNode ≠ [] :=
    List.ne_nil_of_mem (mem_connections_to_of g c hc)
  rw [hch, hv]
  unfold depthValue
  rw [if_neg hcne]
  have hvmem : v ∈ (g.connections_to c.toNode).filterMap
      (fun c => lookupDepth (depthList g l) c.fromNode) :=
    List.mem_filterMap.mpr ⟨c, mem_connections_to_of g c hc, hv⟩
  have := le_foldr_max _ v hvmem
  simp only [Option.getD_some]
  omega

/-- Every recorded depth is bounded by the map's maximum. -/
theorem depth_le_max (g : ProcessingGraph) (l : List NodeId) (n : NodeId)
    (v : Nat) (h : lookupDepth (depthList g l) n = some v) :
    v ≤ (((depthList g l).map (fun p => p.2)).max?).getD 0 := by
  have hv := lookupDepth_mem_values _ _ _ h
  cases hmax : ((depthList g l).map (fun p => p.2)).max? with
  | none =>
    rw [List.max?_eq_none_iff] at hmax
    rw [hmax] at hv
    cases hv
  | some m =>
    rw [Option.getD_some]
    exact ((List.max?_le_iff (fun a b c => Nat.max_le) hmax).mp
      (Nat.le_refl m)) v hv

/-- Every depth up to the maximum is realized by some node. -/
theorem depth_realized (g : ProcessingGraph) (l : List NodeId)
    (hnd : l.Nodup)
    (H : ∀ c ∈ g.connections, c.toNode ∈ l →
      c.fromNode ∈ l
        ∧ List.indexOf c.fromNode l < List.indexOf c.toNode l)
    (hend : ∀ c ∈ g.connections, c.fromNode ∈ l ∧ c.toNode ∈ l)
    (hl : l ≠ []) :
    ∀ d, d ≤ (((depthList g l).map (fun p => p.2)).max?).getD 0 →
      ∃ n ∈ l, lookupDepth (depthList g l) n = some d := by
  have hkeys := depthList_keys g l
  have hknd : ((depthList g l).map (fun p => p.1)).Nodup := by
    rw [hkeys]; exact hnd
  -- the maximum is attained
  have hDne : (depthList g l).map (fun p => p.2) ≠ [] := by
    intro he
    have : depthList g l = [] := by
      cases hd : depthList g l with
      | nil => rfl
      | cons a t => rw [hd] at he; cases he
    rw [this] at hkeys
    exact hl hkeys.symm
  obtain ⟨m, hmax⟩ : ∃ m, ((depthList g l).map (fun p => p.2)).max? = some m := by
    cases hmx : ((depthList g l).map (fun p => p.2)).max? with
    | none => rw [List.max?_eq_none_iff] at hmx; exact absurd hmx hDne
    | some m => exact ⟨m, rfl⟩
  have htop : ∃ n ∈ l, lookupDepth (depthList g l) n = some m := by
    have hm := List.max?_mem (fun a b => by omega) hmax
    obtain ⟨p, hp, hpe⟩ := List.mem_map.mp hm
    refine ⟨p.1, ?_, ?_⟩
    · rw [← hkeys]; exact List.mem_map.mpr ⟨p, hp, rfl⟩
    · rw [← hpe]
      exact lookupDepth_of_mem_nodup _ hknd p.1 p.2 hp
  -- one step down from any positive realized depth
  have hdown : ∀ d n, n ∈ l → lookupDepth (depthList g l) n = some (d + 1) →
      ∃ n' ∈ l, lookupDepth (depthList g l) n' = some d := by
    intro d n hn hlook
    have hch := depthList_char g l hnd H n hn
    rw [hch] at hlook
    unfold depthValue at hlook
    by_cases hce : g.connections_to n = []
    · rw [if_pos hce] at hlook; cases hlook
    · rw [if_neg hce] at hlook
      simp only [Option.some.injEq] at hlook
      have hmax_d : ((g.connections_to n).filterMap
          (fun c => lookupDepth (depthList g l) c.fromNode)).foldr max 0
            = d := by omega
      have hfne : (g.connections_to n).filterMap
          (fun c => lookupDepth (depthList g l) c.fromNode) ≠ [] := by
        obtain ⟨c0, hc0⟩ : ∃ c0, c0 ∈ g.connections_to n := by
          cases hcc : g.connections_to n with
          | nil => exact absurd hcc hce
          | cons a t => exact ⟨a, hcc ▸ List.mem_cons_self a t⟩
        have hc0m := mem_connections_to g n c0 hc0
        have hf : c0.fromNode ∈ (depthList g l).map (fun p => p.1) := by
          rw [hkeys]; exact (hend c0 hc0m.1).1
        obtain ⟨v, hv⟩ := lookupDepth_isSome _ _ hf
        exact List.ne_nil_of_mem (List.mem_filterMap.mpr ⟨c0, hc0, hv⟩)
      have hdm := foldr_max_mem _ hfne
      rw [hmax_d] at hdm
      obtain ⟨c, hcm, hcl⟩ := List.mem_filterMap.mp hdm
      exact ⟨c.fromNode, (hend c (mem_connections_to g n c hcm).1).1, hcl⟩
  -- descending induction from the top
  have hdesc : ∀ j, j ≤ m → ∃ n ∈ l, lookupDepth (depthList g l) n
      = some (m - j) := by
    intro j
    induction j with
    | zero => intro _; simpa using htop
    | succ j ih =>
      intro hj
      obtain ⟨n, hn, hlook⟩ := ih (Nat.le_of_succ_le hj)
      have hms : m - j = (m - (j + 1)) + 1 := by omega
      rw [hms] at hlook
      exact hdown _ n hn hlook
  intro d hd
  rw [hmax, Option.getD_some] at hd
  have := hdesc (m - d) (by omega)
  rw [Nat.sub_sub_self hd] at this
  exact this

/-- C4: on an acyclic graph `parallel_batches` partitions the node set
into batches indexed by longest-path depth: every node lands in exactly
one batch, no batch is empty, every connection's source sits in a strictly
earlier batch than its target, each node's batch index obeys the
longest-path recurrence (0 for nodes with no incoming connection,
otherwise one more than the maximum over its parents' indices), and no
node is an ancestor of another node in the same batch (ancestors sit in
strictly earlier batches).  `order` and `order2` are the two unspecified
`HashMap` iteration orders. -/
theorem parallel_batches_correct (g : ProcessingGraph)
    (order order2 : List NodeId) (hwf : WellFormed g)
    (hperm : order.Perm g.node_ids) (hperm2 : order2.Perm g.node_ids)
    (hacyc : ¬ HasCycle g) :
    ∃ bs, parallelBatches g order order2 = .ok bs
      ∧ bs.flatten.Perm g.node_ids
      ∧ (∀ b ∈ bs, b ≠ [])
      ∧ (∀ c ∈ g.connections,
          batchIndex bs c.fromNode < batchIndex bs c.toNode)
      ∧ (∀ n ∈ g.node_ids,
          (g.connections_to n = [] → batchIndex bs n = 0)
          ∧ (g.connections_to n ≠ [] →
              batchIndex bs n
                = ((g.connections_to n).map
                    (fun c => batchIndex bs c.fromNode)).foldr max 0 + 1))
      ∧ (∀ u v, Relation.TransGen (edgeStep g) u v →
          batchIndex bs u < batchIndex bs v) := by
  have hcomplete := kahn_complete_of_acyclic g order hwf hperm hacyc
  have hok : topologicalSort g order = .ok (kahnRun g order).1 := by
    unfold topologicalSort
    rw [if_pos hcomplete]
  obtain ⟨_, hndF, _, hordF, _⟩ :=
    kahnRun_post g order (order_nodup g order hwf hperm)
  have hperm_l : (kahnRun g order).1.Perm g.node_ids :=
    kahn_perm_of_complete g order hwf hperm hcomplete
  have hend : ∀ c ∈ g.connections,
      c.fromNode ∈ (kahnRun g order).1 ∧ c.toNode ∈ (kahnRun g order).1 :=
    fun c hc => ⟨hperm_l.mem_iff.mpr (hwf.2 c hc).1,
      hperm_l.mem_iff.mpr (hwf.2 c hc).2⟩
  by_cases hnil : g.node_ids = []
  · -- empty graph: no batches, everything vacuous
    have hl : (kahnRun g order).1 = [] := by
      have := hperm_l
      rw [hnil] at this
      exact this.eq_nil
    have ho2 : order2 = [] := by
      have := hperm2
      rw [hnil] at this
      exact this.eq_nil
    have hconn : ∀ c ∈ g.connections, False := by
      intro c hc
      have := (hwf.2 c hc).1
      rw [hnil] at this
      cases this
    refine ⟨[], ?_, ?_, ?_, ?_, ?_, ?_⟩
    · unfold parallelBatches
      rw [hok, hl, ho2]
      rfl
    · rw [hnil]
      exact List.Perm.refl _
    · intro b hb
      cases hb
    · intro c hc
      exact absurd (hconn c hc) (by simp)
    · intro n hn
      rw [hnil] at hn
      cases hn
    · intro u v h
      cases h with
      | single h1 =>
        obtain ⟨c, hc, _, _⟩ := h1
        exact absurd (hconn c hc) (by simp)
      | tail _ h1 =>
        obtain ⟨c, hc, _, _⟩ := h1
        exact absurd (hconn c hc) (by simp)
  · -- nonempty graph
    have hlne : (kahnRun g order).1 ≠ [] := by
      intro he
      rw [he] at hperm_l
      exact hnil (hperm_l.symm.eq_nil)
    have hchar := depthList_char g (kahnRun g order).1 hndF hordF
    have hkeys := depthList_keys g (kahnRun g order).1
    have hlook : ∀ n ∈ (kahnRun g order).1,
        ∃ v, lookupDepth (depthList g (kahnRun g order).1) n = some v := by
      intro n hn
      exact lookupDepth_isSome _ _ (by rw [hkeys]; exact hn)
    have hltE := depth_lt_along_edge g (kahnRun g order).1 hndF hordF hend
    have hreal := depth_realized g (kahnRun g order).1 hndF hordF hend hlne
    -- the pre-filter batch list
    have hne_b : ∀ b ∈ (List.range
          ((((depthList g (kahnRun g order).1).map
            (fun p => p.2)).max?).getD 0 + 1)).map
        (fun d => order2.filter
          (fun n => lookupDepth (depthList g (kahnRun g order).1) n
            = some d)), b ≠ [] := by
      intro b hb
      obtain ⟨d, hd, hdb⟩ := List.mem_map.mp hb
      rw [List.mem_range] at hd
      obtain ⟨nd, hnd_mem, hnd_look⟩ := hreal d (by omega)
      refine List.ne_nil_of_mem (a := nd) ?_
      rw [← hdb]
      exact List.mem_filter.mpr
        ⟨hperm2.mem_iff.mpr (hperm_l.mem_iff.mp hnd_mem), by simp [hnd_look]⟩
    have hfilter_noop : ((List.range
          ((((depthList g (kahnRun g order).1).map
            (fun p => p.2)).max?).getD 0 + 1)).map
        (fun d => order2.filter
          (fun n => lookupDepth (depthList g (kahnRun g order).1) n
            = some d))).filter (fun b => ¬ b = [])
        = (List.range
          ((((depthList g (kahnRun g order).1).map
            (fun p => p.2)).max?).getD 0 + 1)).map
        (fun d => order2.filter
          (fun n => lookupDepth (depthList g (kahnRun g order).1) n
            = some d)) := by
      refine List.filter_eq_self.mpr (fun b hb => ?_)
      exact decide_eq_true (by simpa using hne_b b hb)
    have hbs' : parallelBatches g order order2
        = .ok (((List.range
          ((((depthList g (kahnRun g order).1).map
            (fun p => p.2)).max?).getD 0 + 1)).map
        (fun d => order2.filter
          (fun n => lookupDepth (depthList g (kahnRun g order).1) n
            = some d))).filter (fun b => ¬ b = [])) := by
      unfold parallelBatches
      rw [hok]
    have hbs : parallelBatches g order order2
        = .ok ((List.range
          ((((depthList g (kahnRun g order).1).map
            (fun p => p.2)).max?).getD 0 + 1)).map
        (fun d => order2.filter
          (fun n => lookupDepth (depthList g (kahnRun g order).1) n
            = some d))) := by
      rw [hbs', hfilter_noop]
    set M := ((((depthList g (kahnRun g order).1).map (fun p => p.2)).max?).getD 0)
      with hM
    set bs0 := (List.range (M + 1)).map
      (fun d => order2.filter
        (fun n => lookupDepth (depthList g (kahnRun g order).1) n = some d))
      with hbs0
    have hlen_bs0 : bs0.length = M + 1 := by
      rw [hbs0]; simp
    have hget : ∀ i (hi : i < bs0.length),
        bs0.get ⟨i, hi⟩ = order2.filter
          (fun n => lookupDepth (depthList g (kahnRun g order).1) n
            = some i) := by
      intro i hi
      rw [List.get_eq_getElem]
      have hi' : i < M + 1 := by rw [hlen_bs0] at hi; exact hi
      simp only [hbs0, List.getElem_map, List.getElem_range]
    have hbatchIdx : ∀ n ∈ (kahnRun g order).1, ∀ v,
        lookupDepth (depthList g (kahnRun g order).1) n = some v →
        batchIndex bs0 n = v := by
      intro n hn v hv
      have hvM : v ≤ M := depth_le_max g (kahnRun g order).1 n v hv
      unfold batchIndex
      refine findIdx_eq_of_first _ bs0 v (by omega) ?_ ?_
      · intro i hi hiv
        rw [hget i hi]
        apply decide_eq_false
        intro hmem
        have h2 := (List.mem_filter.mp hmem).2
        simp only [decide_eq_true_eq] at h2
        rw [hv] at h2
        rw [Option.some.injEq] at h2
        omega
      · rw [hget v (by omega)]
        apply decide_eq_true
        exact List.mem_filter.mpr
          ⟨hperm2.mem_iff.mpr (hperm_l.mem_iff.mp hn), by simp [hv]⟩
    have hIdxEdge : ∀ c ∈ g.connections,
        batchIndex bs0 c.fromNode < batchIndex bs0 c.toNode := by
      intro c hc
      obtain ⟨vf, hvf⟩ := hlook c.fromNode (hend c hc).1
      obtain ⟨vt, hvt⟩ := hlook c.toNode (hend c hc).2
      have := hltE c hc
      rw [hvf, hvt] at this
      simp only [Option.getD_some] at this
      rw [hbatchIdx c.fromNode (hend c hc).1 vf hvf,
        hbatchIdx c.toNode (hend c hc).2 vt hvt]
      exact this
    refine ⟨bs0, hbs, ?_, hne_b, hIdxEdge, ?_, ?_⟩
    · -- partition: counts agree with the node-id list
      rw [List.perm_iff_count]
      intro a
      rw [List.count_flatten, hbs0, List.map_map]
      by_cases ha : a ∈ g.node_ids
      · have hal : a ∈ (kahnRun g order).1 := hperm_l.mem_iff.mpr ha
        obtain ⟨va, hva⟩ := hlook a hal
        have hvaM : va ≤ M := depth_le_max g (kahnRun g order).1 a va hva
        have hmapped : (List.range (M + 1)).map
            ((fun b => List.count a b) ∘ (fun d => order2.filter
              (fun n => lookupDepth (depthList g (kahnRun g order).1) n
                = some d)))
            = (List.range (M + 1)).map
              (fun d => if d = va then 1 else 0) := by
          refine List.map_congr_left (fun d _ => ?_)
          simp only [Function.comp]
          by_cases hdv : d = va
          · subst hdv
            rw [List.count_filter (by simp [hva])]
            simp
            exact List.count_eq_one_of_mem (hperm2.nodup_iff.mpr hwf.1)
              (hperm2.mem_iff.mpr ha)
          · rw [if_neg hdv]
            refine List.count_eq_zero.mpr (fun hmem => ?_)
            have h2 := (List.mem_filter.mp hmem).2
            simp only [decide_eq_true_eq] at h2
            rw [hva, Option.some.injEq] at h2
            exact hdv h2.symm
        rw [hmapped, sum_range_indicator va 1 (M + 1) (by omega),
          List.count_eq_one_of_mem hwf.1 ha]
      · have hao2 : a ∉ order2 := fun h => ha (hperm2.mem_iff.mp h)
        have hzero : (List.range (M + 1)).map
            ((fun b => List.count a b) ∘ (fun d => order2.filter
              (fun n => lookupDepth (depthList g (kahnRun g order).1) n
                = some d)))
            = (List.range (M + 1)).map (fun _ => 0) := by
          refine List.map_congr_left (fun d _ => ?_)
          simp only [Function.comp]
          exact List.count_eq_zero.mpr
            (fun hmem => hao2 (List.mem_filter.mp hmem).1)
        rw [hzero, List.count_eq_zero.mpr ha]
        simp
    · -- the longest-path recurrence on batch indices
      intro n hn
      have hnl : n ∈ (kahnRun g order).1 := hperm_l.mem_iff.mpr hn
      obtain ⟨v, hv⟩ := hlook n hnl
      have hidx := hbatchIdx n hnl v hv
      have hch := hchar n hnl
      rw [hv, Option.some.injEq] at hch
      constructor
      · intro hce
        rw [hidx, hch]
        unfold depthValue
        rw [if_pos hce]
      · intro hce
        rw [hidx, hch]
        unfold depthValue
        rw [if_neg hce]
        have hfm : (g.connections_to n).filterMap
            (fun c => lookupDepth (depthList g (kahnRun g order).1)
              c.fromNode)
            = (g.connections_to n).map
              (fun c => batchIndex bs0 c.fromNode) := by
          refine filterMap_eq_map_of_some _ _ _ (fun c hc => ?_)
          have hcm := mem_connections_to g n c hc
          have hcl : c.fromNode ∈ (kahnRun g order).1 := (hend c hcm.1).1
          obtain ⟨vc, hvc⟩ := hlook c.fromNode hcl
          rw [hvc, hbatchIdx c.fromNode hcl vc hvc]
        rw [hfm]
    · -- ancestors land in strictly earlier batches
      intro u v h
      induction h with
      | single h1 =>
        obtain ⟨c, hc, hcf, hct⟩ := h1
        rw [← hcf, ← hct]
        exact hIdxEdge c hc
      | tail _ h1 ih =>
        obtain ⟨c, hc, hcf, hct⟩ := h1
        refine lt_trans ih ?_
        rw [← hcf, ← hct]
        exact hIdxEdge c hc

/-- Witness for C4: the edgeless two-node graph is acyclic; its batches
are one depth-0 batch holding both nodes (in the depth map's iteration
order `[1, 0]`), and the theorem's conclusions hold there. -/
theorem parallel_batches_correct_witness :
    parallelBatches ⟨[(0, ⟨[], []⟩), (1, ⟨[], []⟩)], []⟩ [0, 1] [1, 0]
        = .ok [[1, 0]]
      ∧ ∃ bs,
          parallelBatches ⟨[(0, ⟨[], []⟩), (1, ⟨[], []⟩)], []⟩ [0, 1] [1, 0]
              = .ok bs
            ∧ bs.flatten.Perm
                (ProcessingGraph.node_ids
                  ⟨[(0, ⟨[], []⟩), (1, ⟨[], []⟩)], []⟩)
            ∧ ∀ b ∈ bs, b ≠ [] := by
  have hacyc : ¬ HasCycle ⟨[(0, ⟨[], []⟩), (1, ⟨[], []⟩)], []⟩ := by
    rintro ⟨n, h⟩
    cases h with
    | single h1 =>
      obtain ⟨c, hc, _⟩ := h1
      exact absurd hc (List.not_mem_nil c)
    | tail _ h1 =>
      obtain ⟨c, hc, _⟩ := h1
      exact absurd hc (List.not_mem_nil c)
  obtain ⟨bs, h1, h2, h3, -⟩ := parallel_batches_correct
    ⟨[(0, ⟨[], []⟩), (1, ⟨[], []⟩)], []⟩ [0, 1] [1, 0]
    ⟨by decide, by decide⟩ (by decide) (by decide) hacyc
  exact ⟨rfl, bs, h1, h2, h3⟩

/-- Counterexample for C6: the tracked byte usage can exceed the byte
limit.  Putting a single 150-byte entry into a fresh cache with a
100-byte budget runs the eviction loop dry (`pop_lru` returns nothing, the
loop breaks) and the entry is stored anyway: usage becomes 150 > 100. -/
theorem cache_usage_exceeds_limit_counterexample :
    ((ResultCache.put ⟨[], 10, 100, 0, 3600, 0, 0, 0⟩ ⟨0, 0⟩ 150 0).current_memory
        = 150)
      ∧ ((ResultCache.put ⟨[], 10, 100, 0, 3600, 0, 0, 0⟩ ⟨0, 0⟩ 150 0).max_memory
        = 100) := by
  exact ⟨rfl, rfl⟩

/-- Helper: the eviction loop either reaches a state where the incoming
entry fits under the byte budget, or it drains the LRU list. -/
theorem evictToFit_fits_or_empty (maxMem need : Nat) :
    ∀ (l : List (CacheKey × CacheEntry)) (current ev : Nat),
      (evictToFit maxMem need l current ev).2.1 + need ≤ maxMem
        ∨ (evictToFit maxMem need l current ev).1 = [] := by
  intro l
  induction l with
  | nil => intro current ev; right; rfl
  | cons e rest ih =>
    intro current ev
    by_cases h : maxMem < current + need
    · simpa [evictToFit, h] using ih (current - e.2.memory_size) (ev + 1)
    · left
      simp [evictToFit, h]
      omega

/-- C6 (amended): on every insertion, `put` evicts least-recently-used
entries until either the new entry fits below the byte budget or the LRU
list has been drained; the entry is stored in both cases, so after any
single `put` the tracked usage is within the byte limit unless the
eviction loop emptied the cache with the entry still not fitting (e.g. a
single entry larger than the whole budget). -/
theorem cache_put_within_limit_or_drained (c : ResultCache) (k : CacheKey)
    (size now : Nat) :
    (c.put k size now).current_memory ≤ c.max_memory
      ∨ (evictToFit c.max_memory size c.cache c.current_memory c.evictions).1
          = [] := by
  rcases evictToFit_fits_or_empty c.max_memory size c.cache
      c.current_memory c.evictions with h | h
  · left
    simpa [ResultCache.put] using h
  · right
    exact h

/-- C10: `progress_percent` is total: with a zero node total it returns 100
(no division by zero), and otherwise it returns
`(completed + skipped) / total * 100`. -/
theorem progress_percent_total (total completed skipped : Nat) :
    (total = 0 → progress_percent total completed skipped = 100)
      ∧ (total ≠ 0 →
          progress_percent total completed skipped
            = ((completed : ℚ) + (skipped : ℚ)) / (total : ℚ) * 100) := by
  constructor
  · intro h; simp [progress_percent, h]
  · intro h; simp [progress_percent, h]

/-- Witness for C10: evaluated at total 0 (returns 100) and at a 4-node
tracker with 1 completed and 2 skipped (returns 75). -/
theorem progress_percent_total_witness :
    progress_percent 0 5 7 = 100 ∧ progress_percent 4 1 2 = 75 := by
  refine ⟨(progress_percent_total 0 5 7).1 rfl, ?_⟩
  rw [(progress_percent_total 4 1 2).2 (by decide)]
  norm_num

/-! ### Engine cancellation -/

/-- A `started` event in a start/complete trace names a node of the list. -/
theorem started_mem_of_startCompleteEvents (m : NodeId) :
    ∀ l : List NodeId, EngEvent.started m ∈ startCompleteEvents l → m ∈ l := by
  intro l hl
  induction l with
  | nil => simp [startCompleteEvents] at hl
  | cons n rest ih =>
    simp only [startCompleteEvents, List.mem_cons] at hl
    rcases hl with h | h | h
    · exact List.mem_cons.mpr (Or.inl (EngEvent.started.inj h))
    · exact absurd h (by simp)
    · exact List.mem_cons.mpr (Or.inr (ih h))

/-- When every node is enabled, uncached and successful and the cancel
request lands as the completed counter reaches `k`, the loop stops with
`Cancelled` right after the `(k - completed)`-th remaining node, having
emitted started/completed pairs for exactly those nodes. -/
theorem engineLoop_cancel_aux (k : Nat) (nodes : List NodeId) :
    ∀ st : EngState, st.cancelled = false → st.completed < k →
      k - st.completed < nodes.length →
      engineLoop (fun _ => false) (fun _ => false) (fun _ => true) (some k) nodes st =
        ({ completed := k, skipped := st.skipped, cancelled := true,
           events := st.events
             ++ startCompleteEvents (nodes.take (k - st.completed)) },
         Except.error EngError.cancelled) := by
  induction nodes with
  | nil => intro st h1 h2 h3; simp at h3
  | cons n rest ih =>
    intro st h1 h2 h3
    by_cases hk : st.completed + 1 = k
    · have htake : k - st.completed = 1 := by omega
      rw [htake]
      cases rest with
      | nil => rw [htake] at h3; simp at h3
      | cons r rs =>
        simp [engineLoop, execNode, h1, hk, startCompleteEvents]
    · have h2' : st.completed + 1 < k := by omega
      have hrest : k - (st.completed + 1) < rest.length := by
        simp only [List.length_cons] at h3; omega
      have hloop : engineLoop (fun _ => false) (fun _ => false) (fun _ => true)
            (some k) (n :: rest) st =
          engineLoop (fun _ => false) (fun _ => false) (fun _ => true) (some k) rest
            { completed := st.completed + 1, skipped := st.skipped,
              cancelled := false,
              events := st.events ++ [EngEvent.started n, EngEvent.completed n] } := by
        simp [engineLoop, execNode, h1, hk]
      rw [hloop,
        ih { completed := st.completed + 1, skipped := st.skipped,
              cancelled := false,
              events := st.events ++ [EngEvent.started n, EngEvent.completed n] }
          rfl h2' hrest]
      have hm : k - st.completed = (k - (st.completed + 1)) + 1 := by omega
      rw [hm]
      simp [List.take_succ_cons, startCompleteEvents]

/-- **C8.** Cancellation is cooperative and takes effect at the next loop
check: (i) for any node behaviour, once the tracker's flag is set the
engine starts no further node and returns `Cancelled` with the state
untouched; (ii) when every node runs enabled, uncached and successfully
and the cancel request lands upon the `k`-th `NodeCompleted` of a longer
chain, the run ends in `Cancelled` with the completed counter equal to
`k` and started/completed events for exactly the first `k` nodes; (iii)
in that trace no node outside the first `k` ever started. -/
theorem engine_cancellation (nodes : List NodeId) (k : Nat)
    (hk0 : 0 < k) (hklen : k < nodes.length) :
    (∀ (d c e : NodeId → Bool) (a : Option Nat) (st : EngState)
        (m : NodeId) (rest : List NodeId), st.cancelled = true →
        engineLoop d c e a (m :: rest) st = (st, Except.error EngError.cancelled)) ∧
    engineRun (fun _ => false) (fun _ => false) (fun _ => true) (some k) nodes =
      ({ completed := k, skipped := 0, cancelled := true,
         events := startCompleteEvents (nodes.take k) },
       Except.error EngError.cancelled) ∧
    (∀ m, EngEvent.started m ∈ startCompleteEvents (nodes.take k) →
      m ∈ nodes.take k) := by
  refine ⟨?_, ?_, ?_⟩
  · intro d c e a st m rest h
    simp [engineLoop, h]
  · have h := engineLoop_cancel_aux k nodes ⟨0, 0, false, []⟩ rfl hk0
      (by simpa using hklen)
    simpa [engineRun] using h
  · intro m hm
    exact started_mem_of_startCompleteEvents m _ hm

/-- Witness for C8: the spec's scenario — a 10-node chain cancelled upon
the third `NodeCompleted` ends with `Cancelled`, `completed = 3`, and
events for exactly nodes 0, 1, 2. -/
theorem engine_cancellation_witness :
    0 < 3 ∧ 3 < ([0, 1, 2, 3, 4, 5, 6, 7, 8, 9] : List NodeId).length ∧
    engineRun (fun _ => false) (fun _ => false) (fun _ => true) (some 3)
        [0, 1, 2, 3, 4, 5, 6, 7, 8, 9] =
      ({ completed := 3, skipped := 0, cancelled := true,
         events := startCompleteEvents [0, 1, 2] },
       Except.error EngError.cancelled) :=
  ⟨by decide, by decide,
    (engine_cancellation [0, 1, 2, 3, 4, 5, 6, 7, 8, 9] 3 (by decide)
      (by decide)).2.1⟩

/-! ### Chunked point-wise processing -/

/-- Every tile of a row sits at the row's `y` with the row's height and
stays inside the image width. -/
theorem rowTilesF_shape (W y h tw : Nat) :
    ∀ (fuel x : Nat), x ≤ W →
      ∀ t ∈ rowTilesF W y h tw fuel x,
        t.y = y ∧ t.height = h ∧ t.x + t.width ≤ W := by
  intro fuel
  induction fuel with
  | zero => intro x hx t ht; simp [rowTilesF] at ht
  | succ n ih =>
    intro x hx t ht
    simp only [rowTilesF, List.mem_cons] at ht
    rcases ht with h1 | h2
    · subst h1
      refine ⟨rfl, rfl, ?_⟩
      show x + min tw (W - x) ≤ W
      omega
    · by_cases hg : x + tw < W
      · rw [if_pos hg] at h2
        exact ih (x + tw) (by omega) t h2
      · rw [if_neg hg] at h2; simp at h2

/-- Every tile produced by the iterator stays inside the image bounds. -/
theorem tileRowsF_shape (W H tw th : Nat) :
    ∀ (fuel y : Nat), ∀ t ∈ tileRowsF W H tw th fuel y,
      t.x + t.width ≤ W ∧ t.y + t.height ≤ H := by
  intro fuel
  induction fuel with
  | zero => intro y t ht; simp [tileRowsF] at ht
  | succ n ih =>
    intro y t ht
    simp only [tileRowsF] at ht
    by_cases hy : y < H
    · rw [if_pos hy] at ht
      rcases List.mem_append.mp ht with h1 | h2
      · obtain ⟨e1, e2, e3⟩ :=
          rowTilesF_shape W y (min th (H - y)) tw (W + 1) 0 (by omega) t h1
        exact ⟨e3, by omega⟩
      · exact ih (y + th) t h2
    · rw [if_neg hy] at ht; simp at ht

/-- All tiles stay inside the image bounds. -/
theorem tileRegions_shape (W H tw th : Nat) :
    ∀ t ∈ tileRegions W H tw th, t.x + t.width ≤ W ∧ t.y + t.height ≤ H :=
  tileRowsF_shape W H tw th (H + 1) 0

/-- A row covers every column from its start to the image edge. -/
theorem rowTilesF_covers (W y h tw : Nat) (htw : 1 ≤ tw) (px : Nat) (hpx : px < W) :
    ∀ (fuel x : Nat), x ≤ px → W - x ≤ fuel →
      ∃ t ∈ rowTilesF W y h tw fuel x,
        t.x ≤ px ∧ px < t.x + t.width ∧ t.y = y ∧ t.height = h := by
  intro fuel
  induction fuel with
  | zero => intro x hx hf; omega
  | succ n ih =>
    intro x hx hf
    by_cases hc : px < x + min tw (W - x)
    · exact ⟨TileRegion.mk x y (min tw (W - x)) h,
        by simp [rowTilesF], hx, hc, rfl, rfl⟩
    · have hg : x + tw < W := by omega
      obtain ⟨t, ht, h1, h2, h3, h4⟩ := ih (x + tw) (by omega) (by omega)
      refine ⟨t, ?_, h1, h2, h3, h4⟩
      simp only [rowTilesF, if_pos hg, List.mem_cons]
      exact Or.inr ht

/-- The rows cover every pixel of the image. -/
theorem tileRowsF_covers (W H tw th : Nat) (htw : 1 ≤ tw) (hth : 1 ≤ th)
    (px py : Nat) (hpx : px < W) (hpy : py < H) :
    ∀ (fuel y : Nat), y ≤ py → H - y ≤ fuel →
      ∃ t ∈ tileRowsF W H tw th fuel y,
        t.x ≤ px ∧ px < t.x + t.width ∧ t.y ≤ py ∧ py < t.y + t.height := by
  intro fuel
  induction fuel with
  | zero => intro y hy hf; omega
  | succ n ih =>
    intro y hy hf
    have hyH : y < H := by omega
    by_cases hc : py < y + min th (H - y)
    · obtain ⟨t, ht, h1, h2, h3, h4⟩ :=
        rowTilesF_covers W y (min th (H - y)) tw htw px hpx (W + 1) 0
          (by omega) (by omega)
      refine ⟨t, ?_, h1, h2, by omega, by omega⟩
      simp only [tileRowsF, if_pos hyH, List.mem_append]
      exact Or.inl ht
    · obtain ⟨t, ht, hr⟩ := ih (y + th) (by omega) (by omega)
      refine ⟨t, ?_, hr⟩
      simp only [tileRowsF, if_pos hyH, List.mem_append]
      exact Or.inr ht

/-- Every pixel of the image lies inside some emitted tile. -/
theorem tileRegions_covers (W H tw th : Nat) (htw : 1 ≤ tw) (hth : 1 ≤ th)
    (px py : Nat) (hpx : px < W) (hpy : py < H) :
    ∃ t ∈ tileRegions W H tw th,
      t.x ≤ px ∧ px < t.x + t.width ∧ t.y ≤ py ∧ py < t.y + t.height :=
  tileRowsF_covers W H tw th htw hth px py hpx hpy (H + 1) 0
    (by omega) (by omega)

/-- A pixel outside the pasted region is untouched by `write_tile`. -/
theorem write_tile_pix_untouched (buf d : ImageBuf) (r o : TileRegion) (px py : Nat)
    (h : ¬(r.x ≤ px ∧ px < r.x + r.width ∧ r.y ≤ py ∧ py < r.y + r.height)) :
    (write_tile buf d r o).pix px py = buf.pix px py := by
  simp only [write_tile]
  rw [if_neg fun hfull => h ⟨hfull.1, hfull.2.1, hfull.2.2.1, hfull.2.2.2.1⟩]

/-- `write_tile` preserves the buffer dimensions. -/
theorem write_tile_width (buf d : ImageBuf) (r o : TileRegion) :
    (write_tile buf d r o).width = buf.width ∧
    (write_tile buf d r o).height = buf.height :=
  ⟨rfl, rfl⟩

/-- Pasting the point-wise-processed overlap read of an in-bounds tile
writes `f` of the source pixel at every pixel of the tile's core region:
the expanded region contains the core, the clamps are no-ops, and the
coordinate offsets cancel. -/
theorem write_tile_pix_covered (f : Rgba → Rgba) (img buf : ImageBuf) (ov : Nat)
    (t : TileRegion)
    (hbw : buf.width = img.width) (hbh : buf.height = img.height)
    (hovW : img.width + ov < u32Mod) (hovH : img.height + ov < u32Mod)
    (htW : t.x + t.width ≤ img.width) (htH : t.y + t.height ≤ img.height)
    (px py : Nat) (hpx1 : t.x ≤ px) (hpx2 : px < t.x + t.width)
    (hpy1 : t.y ≤ py) (hpy2 : py < t.y + t.height) :
    (write_tile buf
        (mapBuf f (readTile img (t.expand_with_overlap ov img.width img.height)))
        t (t.expand_with_overlap ov img.width img.height)).pix px py
      = f (img.pix px py) := by
  simp only [u32Mod] at hovW hovH
  have hmodW : (t.x + t.width + ov) % 4294967296 = t.x + t.width + ov :=
    Nat.mod_eq_of_lt (by omega)
  have hmodH : (t.y + t.height + ov) % 4294967296 = t.y + t.height + ov :=
    Nat.mod_eq_of_lt (by omega)
  simp only [write_tile, TileRegion.expand_with_overlap, readTile, mapBuf,
    extract_core, u32Mod, hmodW, hmodH]
  rw [if_pos ⟨hpx1, hpx2, hpy1, hpy2, by omega, by omega⟩]
  rw [if_pos (by refine ⟨by omega, by omega, by omega, by omega⟩)]
  rw [if_pos (by constructor <;> omega)]
  have key : ∀ a b, a = px → b = py → f (img.pix a b) = f (img.pix px py) := by
    intro a b ha hb; rw [ha, hb]
  exact key _ _ (by omega) (by omega)

/-- Characterization of the tile loop on a successful run: dimensions are
preserved, every pixel covered by some processed tile holds `f` of the
source pixel, and uncovered pixels keep the initial buffer's value. -/
theorem processLoop_char (f : Rgba → Rgba) (img : ImageBuf) (ov memLimit : Nat)
    (hovW : img.width + ov < u32Mod) (hovH : img.height + ov < u32Mod) :
    ∀ (ts : List TileRegion) (buf res : ImageBuf),
      buf.width = img.width → buf.height = img.height →
      (∀ t ∈ ts, t.x + t.width ≤ img.width ∧ t.y + t.height ≤ img.height) →
      processLoop (mapBuf f) img ov memLimit ts buf = Except.ok res →
      res.width = img.width ∧ res.height = img.height ∧
      ∀ px py, px < img.width → py < img.height →
        ((∃ t ∈ ts, t.x ≤ px ∧ px < t.x + t.width ∧ t.y ≤ py ∧ py < t.y + t.height) →
          res.pix px py = f (img.pix px py)) ∧
        ((∀ t ∈ ts, ¬(t.x ≤ px ∧ px < t.x + t.width ∧ t.y ≤ py ∧ py < t.y + t.height)) →
          res.pix px py = buf.pix px py) := by
  intro ts
  induction ts with
  | nil =>
    intro buf res hbw hbh _ hok
    simp only [processLoop, Except.ok.injEq] at hok
    subst hok
    refine ⟨hbw, hbh, ?_⟩
    intro px py _ _
    exact ⟨fun h => by simp at h, fun _ => rfl⟩
  | cons t rest ih =>
    intro buf res hbw hbh hts hok
    simp only [processLoop] at hok
    split at hok
    · exact absurd hok (by simp)
    · have hrest := fun t' ht' => hts t' (List.mem_cons_of_mem t ht')
      have hhd := hts t (List.mem_cons_self t rest)
      obtain ⟨hdw, hdh, hpix⟩ := ih
        (write_tile buf
          (mapBuf f (readTile img (t.expand_with_overlap ov img.width img.height)))
          t (t.expand_with_overlap ov img.width img.height)) res
        hbw hbh hrest hok
      refine ⟨hdw, hdh, ?_⟩
      intro px py hpx hpy
      obtain ⟨hpos, hneg⟩ := hpix px py hpx hpy
      constructor
      · rintro ⟨t', ht', hc⟩
        rcases List.mem_cons.mp ht' with rfl | hmem
        · by_cases hr : ∃ u ∈ rest,
              u.x ≤ px ∧ px < u.x + u.width ∧ u.y ≤ py ∧ py < u.y + u.height
          · exact hpos hr
          · have h1 := hneg (fun u hu huc => hr ⟨u, hu, huc⟩)
            rw [h1]
            exact write_tile_pix_covered f img buf ov t' hbw hbh hovW hovH
              hhd.1 hhd.2 px py hc.1 hc.2.1 hc.2.2.1 hc.2.2.2
        · exact hpos ⟨t', hmem, hc⟩
      · intro hnone
        have h1 := hneg (fun u hu => hnone u (List.mem_cons_of_mem t hu))
        rw [h1]
        exact write_tile_pix_untouched buf _ t _ px py
          (hnone t (List.mem_cons_self t rest))

/-- The claim fails as stated for "any overlap": with image `1 × 1`,
clamped tile size `64 × 64` and overlap `2^32 - 1`, the `u32` addition
`right() + overlap` in `expand_with_overlap` wraps to `0`, the expanded
region clips to an empty read, `extract_core`'s bounds guard leaves
the sink's zero pixel in place, and the run still reports success: the
assembled output of the identity transform is the zero pixel, not the
source pixel (in a debug build the wrapped addition panics instead). -/
theorem process_chunked_overflow_counterexample :
    process_pointwise (fun p => p) ⟨1, 1, fun _ _ => ⟨7, 7, 7, 7⟩⟩
        64 64 4294967295 1000000
      = Except.ok (exceptGet (process_pointwise (fun p => p)
          ⟨1, 1, fun _ _ => ⟨7, 7, 7, 7⟩⟩ 64 64 4294967295 1000000)) ∧
    (exceptGet (process_pointwise (fun p => p) ⟨1, 1, fun _ _ => ⟨7, 7, 7, 7⟩⟩
        64 64 4294967295 1000000)).pix 0 0 = ⟨0, 0, 0, 0⟩ ∧
    (fun p : Rgba => p) ((⟨1, 1, fun _ _ => ⟨7, 7, 7, 7⟩⟩ : ImageBuf).pix 0 0)
      = ⟨7, 7, 7, 7⟩ ∧
    (⟨0, 0, 0, 0⟩ : Rgba) ≠ ⟨7, 7, 7, 7⟩ :=
  ⟨rfl, rfl, rfl, by decide⟩

/-- **C5 (amended).** For every source image, every positive tile size
(covering everything `calculate_optimal_tile_size` can produce) and every
overlap small enough that the `u32` additions of `expand_with_overlap` do
not wrap (image dimension plus overlap below `2^32`), whenever chunked
processing with the point-wise per-tile transform succeeds, the image
assembled through the in-memory sink has the source's dimensions and is
pixel-for-pixel `f` of the source — equal to applying `f` to the whole
image at once. -/
theorem process_pointwise_correct (f : Rgba → Rgba) (img : ImageBuf)
    (tw th ov memLimit : Nat) (out : ImageBuf)
    (htw : 1 ≤ tw) (hth : 1 ≤ th)
    (hovW : img.width + ov < u32Mod) (hovH : img.height + ov < u32Mod)
    (hok : process_pointwise f img tw th ov memLimit = Except.ok out) :
    out.width = img.width ∧ out.height = img.height ∧
    ∀ px py, px < img.width → py < img.height →
      out.pix px py = f (img.pix px py) := by
  simp only [process_pointwise, process_chunked] at hok
  obtain ⟨h1, h2, h3⟩ := processLoop_char f img ov memLimit hovW hovH
    (tileRegions img.width img.height tw th)
    (ImageBuf.new img.width img.height) out rfl rfl
    (tileRegions_shape img.width img.height tw th) hok
  refine ⟨h1, h2, ?_⟩
  intro px py hpx hpy
  exact (h3 px py hpx hpy).1
    (tileRegions_covers img.width img.height tw th htw hth px py hpx hpy)

/-- Witness for C5: a 3×2 image, 2×2 tiles with overlap 1 under a
1000-byte budget, processed with the channel-inverting transform; the
run succeeds and pixel (2, 1) equals the transform of the source pixel. -/
theorem process_pointwise_correct_witness :
    ((1 : Nat) ≤ 2 ∧ (1 : Nat) ≤ 2 ∧ 3 + 1 < u32Mod ∧ 2 + 1 < u32Mod) ∧
    (exceptGet (process_pointwise
        (fun p => ⟨255 - p.r, 255 - p.g, 255 - p.b, p.a⟩)
        ⟨3, 2, fun x y => ⟨x, y, x + y, 255⟩⟩ 2 2 1 1000)).pix 2 1
      = ⟨253, 254, 252, 255⟩ := by
  refine ⟨⟨by decide, by decide, by decide, by decide⟩, ?_⟩
  have h := process_pointwise_correct
    (fun p => ⟨255 - p.r, 255 - p.g, 255 - p.b, p.a⟩)
    ⟨3, 2, fun x y => ⟨x, y, x + y, 255⟩⟩ 2 2 1 1000
    (exceptGet (process_pointwise
      (fun p => ⟨255 - p.r, 255 - p.g, 255 - p.b, p.a⟩)
      ⟨3, 2, fun x y => ⟨x, y, x + y, 255⟩⟩ 2 2 1 1000))
    (by decide) (by decide) (by decide) (by decide) rfl
  exact (h.2.2 2 1 (by decide) (by decide)).trans rfl

end Ambara
